import Mathlib

/-!
Verification of the WFC (wave function collapse) engine.

The Rust sources are shallowly embedded: variants, sockets and directions are
interned dense integer ids (`Nat`), per the interning layer described by the
library; grid sizes and positions are lists (axis 0 first); fallible code
returns an explicit result type where `panicked` models a Rust panic (index out
of bounds, `unwrap` on `None`, arithmetic underflow of `usize`).
-/

namespace Wfc

/-! ## Geometry (`util.rs`) -/

/-- Product of the first `i` extents of `size`; the source computes
`(0..i).map(|i| size[i]).product()` when `i > 0` and uses `1` otherwise, which
is the same value. -/
def prefixProd (size : List Nat) (i : Nat) : Nat :=
  (size.take i).prod

/-- `util.rs to_index`: `iter.enumerate().map(|(i, p)| p * Π_{j<i} size[j]).sum()`. -/
def to_index (pos size : List Nat) : Nat :=
  ((List.range pos.length).map (fun i => pos.getD i 0 * prefixProd size i)).sum

/-- The loop body of `util.rs from_index`, producing the parts in reverse
(axis `rev_i` first): divide by the product of the lower extents, keep the
quotient, continue with the remainder. -/
def fromIndexAux (size : List Nat) : Nat → Nat → List Nat
  | 0, _ => []
  | revi + 1, idx =>
    let p := prefixProd size revi
    let entry := idx / p
    entry :: fromIndexAux size revi (idx - entry * p)

/-- `util.rs from_index`: compute the reversed parts for every axis, then
reverse them (`parts.reverse()`). -/
def from_index (index : Nat) (size : List Nat) : List Nat :=
  (fromIndexAux size size.length index).reverse

theorem prefixProd_zero (size : List Nat) : prefixProd size 0 = 1 := rfl

theorem prefixProd_cons_succ (s : Nat) (ss : List Nat) (i : Nat) :
    prefixProd (s :: ss) (i + 1) = s * prefixProd ss i := by
  simp [prefixProd, List.take_succ_cons]

theorem to_index_nil (size : List Nat) : to_index [] size = 0 := rfl

theorem sum_map_mul_left_nat (s : Nat) (g : Nat → Nat) (l : List Nat) :
    (l.map (fun i => s * g i)).sum = s * (l.map g).sum := by
  induction l with
  | nil => simp
  | cons a t ih => simp [ih, Nat.mul_add]

theorem to_index_cons (p s : Nat) (ps ss : List Nat) :
    to_index (p :: ps) (s :: ss) = p + s * to_index ps ss := by
  unfold to_index
  rw [List.length_cons, List.range_succ_eq_map, List.map_cons, List.sum_cons, List.map_map]
  have h1 : (p :: ps).getD 0 0 * prefixProd (s :: ss) 0 = p := by
    simp [prefixProd_zero]
  have h2 : ((List.range ps.length).map
      ((fun i => (p :: ps).getD i 0 * prefixProd (s :: ss) i) ∘ Nat.succ))
      = (List.range ps.length).map (fun i => s * (ps.getD i 0 * prefixProd ss i)) := by
    apply List.map_congr_left
    intro i _
    simp only [Function.comp_apply, List.getD_cons_succ, prefixProd_cons_succ]
    ring
  rw [h1, h2, sum_map_mul_left_nat]

theorem fromIndexAux_cons (s : Nat) (hs : 0 < s) (ss : List Nat) :
    ∀ (k idx : Nat),
      fromIndexAux (s :: ss) (k + 2) idx
        = fromIndexAux ss (k + 1) (idx / s) ++ [idx % s] := by
  intro k
  induction k with
  | zero =>
    intro idx
    have hmod : idx - idx / s * s = idx % s := by
      have h := Nat.div_add_mod idx s
      have h2 : idx / s * s = s * (idx / s) := Nat.mul_comm _ _
      omega
    simp [fromIndexAux, prefixProd_cons_succ, prefixProd_zero, Nat.div_one, hmod]
  | succ k ih =>
    intro idx
    have hq : prefixProd (s :: ss) (k + 2) = s * prefixProd ss (k + 1) :=
      prefixProd_cons_succ s ss (k + 1)
    set q := prefixProd ss (k + 1) with hqdef
    have hdd : idx / (s * q) = idx / s / q := (Nat.div_div_eq_div_mul idx s q).symm
    set e := idx / (s * q) with hedef
    have hle : e * (s * q) ≤ idx := Nat.div_mul_le_self idx (s * q)
    have hle' : s * (e * q) ≤ idx := by
      calc s * (e * q) = e * (s * q) := by ring
      _ ≤ idx := hle
    have hmod : (idx - e * (s * q)) % s = idx % s := by
      have : idx - e * (s * q) = idx - s * (e * q) := by ring_nf
      rw [this, Nat.sub_mul_mod]
      exact hle'
    have hdiv : (idx - e * (s * q)) / s = idx / s - e * q := by
      have h1 : idx - e * (s * q) = idx - e * q * s := by ring_nf
      rw [h1]
      have h2 : e * q ≤ idx / s := by
        rw [Nat.le_div_iff_mul_le hs]
        calc e * q * s = e * (s * q) := by ring
        _ ≤ idx := hle
      have h3 := Nat.div_add_mod idx s
      have h4 : idx - e * q * s = (idx / s - e * q) * s + idx % s := by
        have h5 : e * q * s ≤ s * (idx / s) := by
          calc e * q * s = s * (e * q) := by ring
          _ ≤ s * (idx / s) := Nat.mul_le_mul_left s h2
        have h6 : (idx / s - e * q) * s = idx / s * s - e * q * s := by
          rw [Nat.sub_mul]
        have h7 : idx / s * s = s * (idx / s) := Nat.mul_comm _ _
        omega
      rw [h4, Nat.add_comm, Nat.add_mul_div_right _ _ hs,
        Nat.div_eq_of_lt (Nat.mod_lt _ hs)]
      omega
    show (let p := prefixProd (s :: ss) (k + 2);
          let entry := idx / p;
          entry :: fromIndexAux (s :: ss) (k + 2) (idx - entry * p))
        = fromIndexAux ss (k + 2) (idx / s) ++ [idx % s]
    simp only [hq]
    rw [show idx / (s * q) = e from rfl]
    rw [ih (idx - e * (s * q))]
    rw [hmod, hdiv]
    show (idx / (s * q)) :: (fromIndexAux ss (k + 1) (idx / s - e * q) ++ [idx % s])
        = fromIndexAux ss (k + 2) (idx / s) ++ [idx % s]
    have hrhs : fromIndexAux ss (k + 2) (idx / s)
        = (idx / s / q) :: fromIndexAux ss (k + 1) (idx / s - idx / s / q * q) := by
      simp [fromIndexAux]
    rw [hrhs]
    have he2 : idx / s / q = e := hdd.symm
    rw [he2]
    rfl

theorem from_index_nil (idx : Nat) : from_index idx [] = [] := rfl

theorem from_index_singleton (idx s : Nat) : from_index idx [s] = [idx] := by
  simp [from_index, fromIndexAux, prefixProd_zero, Nat.div_one]

theorem from_index_cons (s : Nat) (hs : 0 < s) (t : Nat) (ts : List Nat) (idx : Nat) :
    from_index idx (s :: t :: ts)
      = (idx % s) :: from_index (idx / s) (t :: ts) := by
  unfold from_index
  have hlen : (s :: t :: ts).length = ts.length + 2 := by simp
  rw [hlen, fromIndexAux_cons s hs (t :: ts) ts.length idx]
  have : (t :: ts).length = ts.length + 1 := by simp
  rw [this]
  simp

theorem to_index_from_index (size : List Nat) (hpos : ∀ x ∈ size, 0 < x) :
    ∀ idx, idx < size.prod → to_index (from_index idx size) size = idx := by
  induction size with
  | nil =>
    intro idx h
    simp only [List.prod_nil] at h
    interval_cases idx
    rfl
  | cons s ss ih =>
    intro idx h
    have hs : 0 < s := hpos s (List.mem_cons_self s ss)
    cases ss with
    | nil =>
      rw [from_index_singleton, to_index_cons, to_index_nil]
      ring
    | cons t ts =>
      rw [from_index_cons s hs t ts idx, to_index_cons]
      have hss : ∀ x ∈ t :: ts, 0 < x := fun x hx => hpos x (List.mem_cons_of_mem s hx)
      have hidx : idx / s < (t :: ts).prod := by
        rw [Nat.div_lt_iff_lt_mul hs]
        calc idx < (s :: t :: ts).prod := h
        _ = (t :: ts).prod * s := by rw [List.prod_cons]; ring
      rw [ih hss (idx / s) hidx]
      exact Nat.mod_add_div idx s

theorem from_index_to_index :
    ∀ (pos size : List Nat), List.Forall₂ (· < ·) pos size →
      from_index (to_index pos size) size = pos := by
  intro pos size h
  induction h with
  | nil => rfl
  | @cons p s ps ss hps hrest ih =>
    cases hrest with
    | nil =>
      rw [to_index_cons, to_index_nil, from_index_singleton]
      simp
    | @cons t u ts us htu hrest2 =>
      have hs : 0 < s := Nat.lt_of_le_of_lt (Nat.zero_le p) hps
      rw [to_index_cons, from_index_cons s hs u us _]
      have hmod : (p + s * to_index (t :: ts) (u :: us)) % s = p := by
        rw [Nat.add_mul_mod_self_left]
        exact Nat.mod_eq_of_lt hps
      have hdiv : (p + s * to_index (t :: ts) (u :: us)) / s
          = to_index (t :: ts) (u :: us) := by
        rw [Nat.add_mul_div_left _ _ hs, Nat.div_eq_of_lt hps]
        omega
      rw [hmod, hdiv, ih]

/-- Claim C5: for every size whose extents are all positive, index conversion
is a bijection between `0..prod size` and in-range positions, computed
column-major with axis 0 fastest: `to_index (from_index i size) size = i` for
`i < prod size`, and `from_index (to_index p size) size = p` for every
position `p` that is componentwise below `size`. -/
theorem c5_index_bijection (size : List Nat) (hpos : ∀ x ∈ size, 0 < x) :
    (∀ idx, idx < size.prod → to_index (from_index idx size) size = idx) ∧
    (∀ pos, List.Forall₂ (· < ·) pos size → from_index (to_index pos size) size = pos) :=
  ⟨to_index_from_index size hpos, fun pos h => from_index_to_index pos size h⟩

/-- Witness for C5 at the concrete size `[5, 5, 5]`, index `117 = (2, 3, 4)`. -/
theorem c5_index_bijection_witness :
    to_index (from_index 117 [5, 5, 5]) [5, 5, 5] = 117 ∧
    from_index (to_index [2, 3, 4] [5, 5, 5]) [5, 5, 5] = [2, 3, 4] :=
  ⟨(c5_index_bijection [5, 5, 5] (by decide)).1 117 (by norm_num),
   (c5_index_bijection [5, 5, 5] (by decide)).2 [2, 3, 4]
     (by constructor <;> [decide; constructor <;> [decide; constructor <;> [decide; constructor]]])⟩

/-! ## Directions and positions

Direction ids are `0 .. dcount`, paired as opposites (`DimensionId::opposite`
and the prebuilt `Dim1d`/`Dim2d`/`Dim3d` enumerations: even id = negative axis
end, odd id = positive end). -/

/-- `DimensionId::opposite` / the prebuilt enums: flip the last bit. -/
def oppositeDir (d : Nat) : Nat :=
  if d % 2 == 0 then d + 1 else d - 1

/-- `IPos + direction` (`util.rs Add<D> for IPos`): offset axis `d / 2` by
`-1` when `d` is even, `+1` when odd. An axis index beyond the position's
dimension is an out-of-bounds slice index, a panic, modelled as `none`. -/
def posAdd (pos : List Int) (dir : Nat) : Option (List Int) :=
  let arrIndex := dir / 2
  let offset : Int := if dir % 2 == 0 then -1 else 1
  match pos.get? arrIndex with
  | none => none
  | some v => some (pos.set arrIndex (v + offset))

/-- `Size::contains`: every coordinate is `≥ 0` and below the extent. -/
def sizeContains (size : List Nat) (pos : List Int) : Bool :=
  (pos.zip size).all (fun p => decide (0 ≤ p.1) && decide (p.1 < (p.2 : Int)))

/-- `util.rs wrap`: `((i % s) + s) % s`; for a positive `s` the truncated `%`
of the source and the Euclidean `%` used here give the same composite value. -/
def wrapInt (i s : Int) : Int := ((i % s) + s) % s

/-- `IPos::index`: cast each coordinate to `usize` and linearize. All call
sites pass in-range (hence non-negative) positions. -/
def iposIndex (pos : List Int) (size : List Nat) : Nat :=
  to_index (pos.map Int.toNat) size

/-- `IPos::wrap`: Euclidean wrap per axis. -/
def iposWrap (pos : List Int) (size : List Nat) : List Int :=
  List.zipWith wrapInt pos (size.map (fun s => (s : Int)))

/-- `IPos::index_in`: wrap into `size`, then linearize. -/
def indexIn (pos : List Int) (size : List Nat) : Nat :=
  iposIndex (iposWrap pos size) size

/-! ## Errors and results (`err.rs`)

`Contradiction` is embedded with the two fields that `State::constrain`
actually fills (`position`, `neighbor`); `err.rs` declares three more
(`direction`, `neighbor_variants`, `neighbor_sockets`) that no construction
site supplies. `panicked` models a Rust panic (indexing out of bounds,
`unwrap` of `None`, `usize` underflow); `nofuel` is the embedding's explicit
recursion bound, never reached by the terminating source loops. -/

inductive Err where
  | contradiction (position neighbor : List Int)
  | noPossibilities
  | dimensionMismatch (const_value dimension_count : Nat)
deriving DecidableEq, Repr

inductive Res (α : Type) where
  | ok (a : α)
  | err (e : Err)
  | panicked
  | nofuel
deriving DecidableEq, Repr

def Res.bind {α β : Type} (r : Res α) (f : α → Res β) : Res β :=
  match r with
  | .ok a => f a
  | .err e => .err e
  | .panicked => .panicked
  | .nofuel => .nofuel

instance : Monad Res where
  pure := Res.ok
  bind := Res.bind

/-- Lift an `Option` whose `none` is a panic (`unwrap` / `Index` panics). -/
def orPanic {α : Type} : Option α → Res α
  | some a => .ok a
  | none => .panicked

/-! ## Rules (`rules.rs`), on interned ids -/

/-- `Rule`: direction id to socket id. -/
structure Rule where
  table : List (Nat × Nat)
deriving DecidableEq, Repr

/-- `Rule::socket_for`. -/
def Rule.socket_for (r : Rule) (d : Nat) : Option Nat :=
  (r.table.find? (fun e => e.1 == d)).map (fun e => e.2)

/-- `Rules`: variant id to rule. -/
structure Rules where
  table : List (Nat × Rule)
deriving DecidableEq, Repr

/-- `Rules::rule_for`. -/
def Rules.rule_for (rs : Rules) (v : Nat) : Option Rule :=
  (rs.table.find? (fun e => e.1 == v)).map (fun e => e.2)

/-- `Rules::keys` (the `rules.keys()` iterator in `Cells::new`). -/
def Rules.keys (rs : Rules) : List Nat := rs.table.map (fun e => e.1)

/-! ## Ordered sets (`ordermap::OrderSet`) -/

/-- `OrderSet::insert`: append at the end when absent. -/
def ordInsert (b : List Nat) (x : Nat) : List Nat :=
  if x ∈ b then b else b ++ [x]

/-- `OrderSet::swap_remove`: remove `x`, moving the last element into its
slot — a no-op when `x` is absent, plain removal when `x` is itself last,
substitution of the last element for `x` otherwise. -/
def swapRemove (b : List Nat) (x : Nat) : List Nat :=
  if x ∈ b then
    if x = b.getLastD 0 then b.dropLast
    else b.dropLast.map (fun y => if y = x then b.getLastD 0 else y)
  else b

/-- `OrderSet::from_iter`: insert every element in order, skipping
duplicates. -/
def ordSetOfList (l : List Nat) : List Nat :=
  l.foldl (fun acc v => ordInsert acc v) []

/-! ## Entropy cache (`cells.rs EntropyCache`) -/

structure EntropyCache where
  buckets : List (List Nat)
deriving DecidableEq, Repr

/-- `EntropyCache::new(max_entropy)`. -/
def EntropyCache.new (maxEntropy : Nat) : EntropyCache :=
  ⟨List.replicate maxEntropy []⟩

/-- The `Index` impl `&self.0[index - 1]`: one-based. Entropy `0` underflows
the subtraction and an entropy beyond the vector is out of bounds — both a
panic, modelled as `none`. -/
def EntropyCache.getBucket (c : EntropyCache) (e : Nat) : Option (List Nat) :=
  if e = 0 then none else c.buckets.get? (e - 1)

/-- The `IndexMut` impl, writing the bucket back; same panic conditions. -/
def EntropyCache.putBucket (c : EntropyCache) (e : Nat) (b : List Nat) :
    Option EntropyCache :=
  if e = 0 ∨ c.buckets.length < e then none else some ⟨c.buckets.set (e - 1) b⟩

/-- `EntropyCache::set`: `self[starting_entropy].swap_remove(&index);
self[new_entropy].insert(index)`. -/
def EntropyCache.set (c : EntropyCache) (startingEntropy index newEntropy : Nat) :
    Option EntropyCache := do
  let b1 ← c.getBucket startingEntropy
  let c1 ← c.putBucket startingEntropy (swapRemove b1 index)
  let b2 ← c1.getBucket newEntropy
  c1.putBucket newEntropy (ordInsert b2 index)

/-- `EntropyCache::clear_entry`. -/
def EntropyCache.clear_entry (c : EntropyCache) (entropy index : Nat) :
    Option EntropyCache := do
  let b ← c.getBucket entropy
  c.putBucket entropy (swapRemove b index)

/-- `EntropyCache::lowest`: the first non-empty bucket. -/
def EntropyCache.lowest (c : EntropyCache) : Option (List Nat) :=
  c.buckets.find? (fun b => !b.isEmpty)

/-! ## Cells (`cells.rs Cell`), in the canonical field representation
(`possibilities` plus an `entropy` field kept equal to the set size, the
contract the library requires of all its revisions) -/

structure Cell where
  possibilities : List Nat
  entropy : Nat
  isCollapsed : Bool
  neighbors : List (Nat × Nat)
  position : List Int
deriving DecidableEq, Repr

/-- `Cell::collapsed`. -/
def Cell.collapsed (c : Cell) : Bool := c.isCollapsed

/-- `Cell::selected_variant`: the variant of a collapsed cell. -/
def Cell.selected_variant (c : Cell) : Option Nat :=
  if c.isCollapsed then c.possibilities.head? else none

/-- `Cell::remove_variant`: drop the variant from an uncollapsed cell's
possibilities (`OrderSet::swap_remove`), keeping `entropy` in sync. -/
def Cell.remove_variant (c : Cell) (v : Nat) : Cell :=
  if c.isCollapsed then c
  else
    let ps := swapRemove c.possibilities v
    { c with possibilities := ps, entropy := ps.length }

/-- `Cell::collapse`: the cell now holds exactly the chosen variant. -/
def Cell.collapse (c : Cell) (v : Nat) : Cell :=
  { c with possibilities := [v], entropy := 0, isCollapsed := true }

/-- `Cell::neighbors_of` for one direction list: `(pos + d, d)` for every
in-bounds neighbor, in direction order. -/
def neighborsOfAux (position : List Int) (size : List Nat) :
    List Nat → Option (List (Nat × Nat))
  | [] => some []
  | d :: ds => do
    let npos ← posAdd position d
    let rest ← neighborsOfAux position size ds
    pure (if sizeContains size npos then (iposIndex npos size, d) :: rest else rest)

/-- `Cell::neighbors_of`: iterate all `dcount` directions. -/
def neighbors_of (position : List Int) (size : List Nat) (dcount : Nat) :
    Option (List (Nat × Nat)) :=
  neighborsOfAux position size (List.range dcount)

/-! ## Socket cache (`state.rs SocketCache`) -/

/-- Two-level map `candidate list → direction → socket set`; the `HashSet` of
sockets is modelled as the list of contributions (queried only through the
constraint's membership checks). -/
structure SocketCache where
  table : List (List Nat × List (Nat × List Nat))
deriving DecidableEq, Repr

/-- The union computed on a miss: `variants.iter().flat_map(|id|
rules.rule_for(id).and_then(|rule| rule.socket_for(&dir)))`. -/
def socketsOf (rules : Rules) (variants : List Nat) (d : Nat) : List Nat :=
  variants.filterMap (fun v => (rules.rule_for v).bind (fun r => r.socket_for d))

/-- `SocketCache::lookup`: outer `none` = no entry for the candidate list,
inner `none` = no entry for the direction. -/
def SocketCache.lookup (c : SocketCache) (variants : List Nat) (d : Nat) :
    Option (Option (List Nat)) :=
  (c.table.find? (fun e => e.1 == variants)).map
    (fun e => (e.2.find? (fun de => de.1 == d)).map (fun de => de.2))

/-- `SocketCache::full_create`: `entry(..).or_default()` on the outer map,
then `entry(dir).or_insert_with(union)`. -/
def SocketCache.fullCreate (c : SocketCache) (rules : Rules) (variants : List Nat)
    (d : Nat) : List Nat × SocketCache :=
  match c.table.find? (fun e => e.1 == variants) with
  | none =>
    let sockets := socketsOf rules variants d
    (sockets, ⟨c.table ++ [(variants, [(d, sockets)])]⟩)
  | some entry =>
    match entry.2.find? (fun de => de.1 == d) with
    | some de => (de.2, c)
    | none =>
      let sockets := socketsOf rules variants d
      (sockets,
        ⟨c.table.map (fun e => if e.1 == variants then (e.1, e.2 ++ [(d, sockets)]) else e)⟩)

/-- `SocketCache::partial_create`: `get_mut(variants).unwrap()` — panic
(`none`) when the outer entry is missing — then `entry(dir).or_insert_with`. -/
def SocketCache.partialCreate (c : SocketCache) (rules : Rules) (variants : List Nat)
    (d : Nat) : Option (List Nat × SocketCache) :=
  match c.table.find? (fun e => e.1 == variants) with
  | none => none
  | some entry =>
    match entry.2.find? (fun de => de.1 == d) with
    | some de => some (de.2, c)
    | none =>
      let sockets := socketsOf rules variants d
      some (sockets,
        ⟨c.table.map (fun e => if e.1 == variants then (e.1, e.2 ++ [(d, sockets)]) else e)⟩)

/-! ## `State::constrain` -/

/-- The retain predicate inside `State::constrain`: a variant survives iff it
has a rule, the rule has a socket on the side facing the neighbor, and the
constraint accepts that socket against the neighbor's exposed sockets;
"no rule means no connection". -/
def keepCheck (chk : Nat → List Nat → Bool) (rules : Rules) (opposite : Nat)
    (neighborSockets : List Nat) (variant : Nat) : Bool :=
  match rules.rule_for variant with
  | none => false
  | some selfRule =>
    match selfRule.socket_for opposite with
    | some socket => chk socket neighborSockets
    | none => false

/-- The cache-fetching `match` at the top of `State::constrain`: hit,
partial miss (candidate set known, direction missing) or full miss. -/
def socketCacheFetch (cache : SocketCache) (rules : Rules) (variants : List Nat)
    (d : Nat) : Option (List Nat × SocketCache) :=
  match cache.lookup variants d with
  | some (some sockets) => some (sockets, cache)
  | some none => cache.partialCreate rules variants d
  | none => some (cache.fullCreate rules variants d)

/-- `State::constrain`: fetch (or create) the sockets the neighbor's
candidates expose toward this cell, retain the variants whose rule has a
compatible socket on the opposite side, raise `Contradiction` when nothing
survives, otherwise refresh `entropy`. `chk` is the pluggable
`Constraint::check`. -/
def constrain (cell : Cell) (chk : Nat → List Nat → Bool)
    (neighborPossibilities : List Nat) (neighborToSelfDir : Nat) (rules : Rules)
    (cache : SocketCache) : Res (Cell × SocketCache) :=
  match socketCacheFetch cache rules neighborPossibilities neighborToSelfDir with
  | none => .panicked
  | some (neighborSockets, cache') =>
    let newPoss := cell.possibilities.filter
      (keepCheck chk rules (oppositeDir neighborToSelfDir) neighborSockets)
    if newPoss.isEmpty then
      match posAdd cell.position (oppositeDir neighborToSelfDir) with
      | none => .panicked
      | some npos => .err (.contradiction cell.position npos)
    else
      .ok ({ cell with possibilities := newPoss, entropy := newPoss.length }, cache')

/-! ## `cells.rs Cells` -/

structure Cells where
  size : List Nat
  list : List Cell
  entropy_cache : EntropyCache
deriving DecidableEq, Repr

/-- The construction loop of `Cells::new`: seeded entries become collapsed
cells, the rest start with the full possibility set and are enrolled in the
top entropy bucket. -/
def cellsNewAux (size : List Nat) (all : List Nat) (dcount maxEntropy : Nat) :
    List (Nat × Option Nat) → EntropyCache → Option (List Cell × EntropyCache)
  | [], cache => some ([], cache)
  | (i, inp) :: rest, cache => do
    let position := (from_index i size).map (fun n => (n : Int))
    let nbrs ← neighbors_of position size dcount
    match inp with
    | some v => do
      let (cells, cacheOut) ← cellsNewAux size all dcount maxEntropy rest cache
      pure (⟨[v], 0, true, nbrs, position⟩ :: cells, cacheOut)
    | none => do
      let b ← cache.getBucket maxEntropy
      let cache1 ← cache.putBucket maxEntropy (ordInsert b i)
      let (cells, cacheOut) ← cellsNewAux size all dcount maxEntropy rest cache1
      pure (⟨all, all.length, false, nbrs, position⟩ :: cells, cacheOut)

/-- `Cells::new`. -/
def Cells.new (size : List Nat) (input : List (Option Nat)) (rules : Rules)
    (dcount : Nat) : Option Cells := do
  let all := ordSetOfList rules.keys
  let cache := EntropyCache.new all.length
  let (list, cacheOut) ← cellsNewAux size all dcount all.length input.enum cache
  pure ⟨size, list, cacheOut⟩

/-- `Cells::set_entropy`. -/
def Cells.set_entropy (cs : Cells) (startingEntropy index newEntropy : Nat) :
    Option Cells :=
  (cs.entropy_cache.set startingEntropy index newEntropy).map
    (fun ec => { cs with entropy_cache := ec })

/-- `Cells::collapse`: run the chooser on an unstable cell's possibilities,
remove the cell from its bucket, collapse it. `σ` threads the chooser's
mutable captures (the arbiter's PRNG). -/
def Cells.collapse {σ : Type} (cs : Cells) (index : Nat)
    (chooser : Cells → List Nat → σ → Res (Nat × σ)) (s0 : σ) : Res (Cells × σ) :=
  match cs.list.get? index with
  | none => .panicked
  | some cell =>
    if cell.collapsed then .ok (cs, s0)
    else do
      let (variant, s1) ← chooser cs cell.possibilities s0
      let cache ← orPanic (cs.entropy_cache.clear_entry cell.possibilities.length index)
      let list := cs.list.set index (cell.collapse variant)
      .ok (⟨cs.size, list, cache⟩, s1)

/-- `Cells::find_cells`, with the source's in-place position threading (the
recursion mutates `pos` and later loop iterations observe it); `fuel` bounds
the nesting depth, which the source caps at `DIM`. -/
def findCellsGo (cells : Cells) (dim dindex : Nat) :
    Nat → Nat → (List Nat × List Nat) → Option (List Nat × List Nat)
  | 0, _, _ => none
  | fuel + 1, dimension, (pos, acc) => do
    let index := to_index pos cells.size
    let cell ← cells.list.get? index
    let acc1 := if !cell.collapsed then acc ++ [index] else acc
    if dimension < dim then
      let d := (dindex + dimension) % dim
      (List.range' 1 (cells.size.getD d 0 - 1)).foldlM
        (fun pa i => findCellsGo cells dim dindex fuel (dimension + 1) (pa.1.set d i, pa.2))
        (pos, acc1)
    else
      some (pos, acc1)

/-- `Cells::uncollapsed_indexes_along_dir`: the slab where axis `dir / 2` is
pinned to `0` (even direction) or the far extent (odd). -/
def Cells.uncollapsed_indexes_along_dir (cells : Cells) (dir dim : Nat) :
    Option (List Nat) := do
  let dindex := dir / 2
  let pos0 : List Nat := List.replicate cells.size.length 0
  let pos1 :=
    if dir % 2 == 0 then pos0.set dindex 0
    else pos0.set dindex (cells.size.getD dindex 0 - 1)
  let (_, acc) ← findCellsGo cells dim dindex (dim + 1) 1 (pos1, [])
  pure acc

/-! ## Propagation (`State::propagate`) -/

def totalPoss (cells : Cells) : Nat :=
  (cells.list.map (fun c => c.possibilities.length)).sum

/-- The inner loop of `State::propagate`: visit each uncollapsed neighbor,
constrain it against this cell's possibilities, and when its entropy dropped
move it between buckets and push it on the stack. -/
def propagateNeighbors (chk : Nat → List Nat → Bool) (rules : Rules) (cellIndex : Nat) :
    List (Nat × Nat) → Cells → SocketCache → List Nat →
    Res (Cells × SocketCache × List Nat)
  | [], cells, cache, stack => .ok (cells, cache, stack)
  | (neighborIndex, direction) :: rest, cells, cache, stack => do
    let cell ← orPanic (cells.list.get? cellIndex)
    let neighbor ← orPanic (cells.list.get? neighborIndex)
    let startingEntropy := neighbor.entropy
    let (neighbor', cache') ← constrain neighbor chk cell.possibilities direction rules cache
    let newEntropy := neighbor'.entropy
    let cells' : Cells := ⟨cells.size, cells.list.set neighborIndex neighbor', cells.entropy_cache⟩
    if startingEntropy != newEntropy then do
      let cells2 ← orPanic (cells'.set_entropy startingEntropy neighborIndex newEntropy)
      propagateNeighbors chk rules cellIndex rest cells2 cache' (neighborIndex :: stack)
    else
      propagateNeighbors chk rules cellIndex rest cells' cache' stack

/-- The outer stack loop of `State::propagate`. The head of the stack list is
the top (`Vec::pop`). -/
def propagateLoop (chk : Nat → List Nat → Bool) (rules : Rules) :
    Nat → Cells → SocketCache → List Nat → Res (Cells × SocketCache)
  | 0, _, _, _ => .nofuel
  | _ + 1, cells, cache, [] => .ok (cells, cache)
  | fuel + 1, cells, cache, cellIndex :: stack => do
    let cell ← orPanic (cells.list.get? cellIndex)
    let neighbors := cell.neighbors.filter
      (fun p => ((cells.list.get? p.1).map (fun c => !c.collapsed)).getD false)
    let (cells', cache', stack') ←
      propagateNeighbors chk rules cellIndex neighbors cells cache stack
    propagateLoop chk rules fuel cells' cache' stack'

/-- `State::propagate`. The source loop terminates because every iteration
either pops without pushing or strictly shrinks the total possibility count;
`totalPoss + 2` exceeds that bound, so the fuel is never exhausted. -/
def propagate (chk : Nat → List Nat → Bool) (rules : Rules) (cells : Cells)
    (cache : SocketCache) (cellIndex : Nat) : Res (Cells × SocketCache) :=
  propagateLoop chk rules (totalPoss cells + 2) cells cache [cellIndex]

/-! ## Reference arbiter and adjuster (`prebuilt/arbiters.rs`) -/

structure Rng where
  state : Nat
deriving DecidableEq, Repr

/-- Stand-in for the seeded deterministic `ChaCha20Rng`: a linear
congruential step. The theorems depend only on determinism and on picks being
members of the offered list. -/
def Rng.next (r : Rng) : Nat × Rng :=
  let s := (r.state * 1103515245 + 12345) % 2147483648
  (s, ⟨s⟩)

/-- `ChaCha20Rng::seed_from_u64`. -/
def Rng.ofSeed (seed : Nat) : Rng := ⟨seed % 2147483648⟩

/-- `iter.choose(&mut rng)`: pick one element by position; `None` on an empty
iterator. -/
def chooseFrom (l : List Nat) (r : Rng) : Option Nat × Rng :=
  let (n, r') := r.next
  (l.get? (n % l.length), r')

/-- `RandomArbiter::designate`: pick a cell from the lowest non-empty entropy
bucket, then collapse it with a random member of its possibilities
(`Error::NoPossibilities` when empty). -/
def designate (cells : Cells) (rng : Rng) : Res (Option Nat × Cells × Rng) :=
  match cells.entropy_cache.lowest with
  | none => .ok (none, cells, rng)
  | some indexes =>
    let (pick, rng1) := chooseFrom indexes rng
    match pick with
    | none => .ok (none, cells, rng1)
    | some index => do
      let (cells', rng2) ← Cells.collapse cells index
        (fun _cells variants r =>
          let (choice, r') := chooseFrom variants r
          match choice with
          | some v => .ok (v, r')
          | none => .err .noPossibilities) rng1
      .ok (some index, cells', rng2)

def lookupLimit (limits : List (Nat × Nat)) (v : Nat) : Option Nat :=
  (limits.find? (fun e => e.1 == v)).map (fun e => e.2)

def setLimit (limits : List (Nat × Nat)) (v n : Nat) : List (Nat × Nat) :=
  limits.map (fun e => if e.1 == v then (e.1, n) else e)

/-- The strike loop of `LimitAdjuster::revise`: every uncollapsed cell loses
the variant and is moved between entropy buckets (`entropy_cache.set`). -/
def limitStrike (variant : Nat) : List Nat → Cells → Option Cells
  | [], cells => some cells
  | i :: rest, cells =>
    match cells.list.get? i with
    | none => none
    | some cell =>
      if cell.collapsed then limitStrike variant rest cells
      else
        let startingEntropy := cell.entropy
        let cell' := cell.remove_variant variant
        match cells.entropy_cache.set startingEntropy i cell'.entropy with
        | none => none
        | some cache =>
          limitStrike variant rest ⟨cells.size, cells.list.set i cell', cache⟩

/-- `LimitAdjuster::revise`: decrement the variant's remaining count
(saturating); once it reaches zero, strike the variant from every uncollapsed
cell. -/
def limitRevise (limits : List (Nat × Nat)) (variant : Nat) (cells : Cells) :
    Option (List (Nat × Nat) × Cells) :=
  match lookupLimit limits variant with
  | none => some (limits, cells)
  | some limit =>
    let newLimit := limit - 1
    let limits' := setLimit limits variant newLimit
    if newLimit > 0 then some (limits', cells)
    else (limitStrike variant (List.range cells.list.length) cells).map
      (fun cs => (limits', cs))

/-! ## The engine (`state.rs State`, with the reference
`RandomArbiter.chain(LimitAdjuster)` arbitration) -/

structure St where
  cells : Cells
  rules : Rules
  cache : SocketCache
  rng : Rng
  limits : List (Nat × Nat)
deriving DecidableEq, Repr

/-- `State::collapse`: observe (designate) one cell, run the adjuster chain
with the chosen variant, propagate; `none` means `Observation::Complete`. -/
def step (chk : Nat → List Nat → Bool) (st : St) : Res (Option Nat × St) := do
  let (picked, cells1, rng1) ← designate st.cells st.rng
  match picked with
  | none => .ok (none, { st with cells := cells1, rng := rng1 })
  | some index => do
    let cell ← orPanic (cells1.list.get? index)
    let possibility ← orPanic cell.selected_variant
    let (limits', cells2) ← orPanic (limitRevise st.limits possibility cells1)
    let (cells3, cache') ← propagate chk st.rules cells2 st.cache index
    .ok (some index, ⟨cells3, st.rules, cache', rng1, limits'⟩)

/-- `lib.rs collapse`: iterate `State::collapse` until `Complete`. Each
incomplete step collapses one cell, so the cell count bounds the loop. -/
def runLoop (chk : Nat → List Nat → Bool) : Nat → St → Res St
  | 0, _ => .nofuel
  | fuel + 1, st =>
    match step chk st with
    | .ok (none, st') => .ok st'
    | .ok (some _, st') => runLoop chk fuel st'
    | .err e => .err e
    | .panicked => .panicked
    | .nofuel => .nofuel

def runAll (chk : Nat → List Nat → Bool) (st : St) : Res St :=
  runLoop chk (st.cells.list.length + 1) st

/-! ## Builder (`StateBuilder` / `State::new`) -/

structure BuildInput where
  dim : Nat
  dcount : Nat
  size : List Nat
  seed : Nat
  limits : List (Nat × Nat)
  rules : Rules
  seeds : List (List Nat × Nat)
  ext : List (Nat × List Nat)
deriving DecidableEq, Repr

/-- `StateBuilder::insert` calls, applied to the `vec![None; size.len()]`
output buffer: `buffer[pos.index(size)] = Some(v)` (panic when out of
range). -/
def mkBuffer (size : List Nat) :
    List (List Nat × Nat) → List (Option Nat) → Option (List (Option Nat))
  | [], buf => some buf
  | (pos, v) :: rest, buf =>
    let i := to_index pos size
    if i < buf.length then mkBuffer size rest (buf.set i (some v)) else none

def outputBuffer (inp : BuildInput) : Option (List (Option Nat)) :=
  mkBuffer inp.size inp.seeds (List.replicate inp.size.prod none)

def SocketCache.empty : SocketCache := ⟨[]⟩

/-- The per-face-index loop of `State::apply_external_information`: constrain
the edge cell against the singleton external variant arriving from
`opposite(dir)`, update its bucket when the entropy changed, propagate. -/
def applyExtIndexes (chk : Nat → List Nat → Bool) (rules : Rules) (dir : Nat)
    (extList : List Nat) (extSize : List Nat) :
    List Nat → Cells → SocketCache → Res (Cells × SocketCache)
  | [], cells, cache => .ok (cells, cache)
  | index :: rest, cells, cache => do
    let cell ← orPanic (cells.list.get? index)
    let neighborPos ← orPanic (posAdd cell.position dir)
    let neighborIndex := indexIn neighborPos extSize
    let extVariant ← orPanic (extList.get? neighborIndex)
    let startingEntropy := cell.entropy
    let (cell', cache1) ← constrain cell chk [extVariant] (oppositeDir dir) rules cache
    let newEntropy := cell'.entropy
    let cells1 : Cells := ⟨cells.size, cells.list.set index cell', cells.entropy_cache⟩
    let cells2 ←
      if startingEntropy != newEntropy then
        orPanic (cells1.set_entropy startingEntropy index newEntropy)
      else pure cells1
    let (cells3, cache2) ← propagate chk rules cells2 cache1 index
    applyExtIndexes chk rules dir extList extSize rest cells3 cache2

/-- `State::apply_external_information`, over the provided faces. -/
def applyExternal (chk : Nat → List Nat → Bool) (rules : Rules) (dim : Nat) :
    List (Nat × List Nat) → Cells → SocketCache → Res (Cells × SocketCache)
  | [], cells, cache => .ok (cells, cache)
  | (dir, ext) :: rest, cells, cache => do
    let indexes ← orPanic (cells.uncollapsed_indexes_along_dir dir dim)
    let (cells', cache') ← applyExtIndexes chk rules dir ext cells.size indexes cells cache
    applyExternal chk rules dim rest cells' cache'

/-- `State::apply_predetermined_cells`: run the adjuster with every seeded
variant, then propagate from its cell. -/
def applyPredetermined (chk : Nat → List Nat → Bool) (rules : Rules) :
    List (Nat × Nat) → List (Nat × Nat) → Cells → SocketCache →
    Res (List (Nat × Nat) × Cells × SocketCache)
  | [], limits, cells, cache => .ok (limits, cells, cache)
  | (i, variant) :: rest, limits, cells, cache => do
    let (limits', cells1) ← orPanic (limitRevise limits variant cells)
    let (cells2, cache') ← propagate chk rules cells1 cache i
    applyPredetermined chk rules rest limits' cells2 cache'

/-- `StateBuilder::build` followed by `State::new`: the dimension validation
(`DIM != D::COUNT / 2`), cell construction, external borders, seeded-cell
propagation. -/
def build (chk : Nat → List Nat → Bool) (inp : BuildInput) : Res St :=
  if inp.dim ≠ inp.dcount / 2 then
    .err (.dimensionMismatch inp.dim inp.dcount)
  else do
    let buffer ← orPanic (outputBuffer inp)
    let cells ← orPanic (Cells.new inp.size buffer inp.rules inp.dcount)
    let (cells1, cache1) ←
      applyExternal chk inp.rules inp.dim inp.ext cells SocketCache.empty
    let seeded := cells1.list.enum.filterMap
      (fun p => (p.2.selected_variant).map (fun v => (p.1, v)))
    let (limits', cells2, cache2) ←
      applyPredetermined chk inp.rules seeded inp.limits cells1 cache1
    .ok ⟨cells2, inp.rules, cache2, Rng.ofSeed inp.seed, limits'⟩

/-- The consuming `From<State> for Vec<V>`:
`cell.possibilities.into_iter().next().unwrap()` per cell, in grid order;
`none` models the `unwrap` panic on an empty candidate set. -/
def stateToVec (st : St) : Option (List Nat) :=
  st.cells.list.mapM (fun cell => cell.possibilities.head?)

/-- A whole run: build, collapse until complete, convert into the variant
sequence. -/
def runWfc (chk : Nat → List Nat → Bool) (inp : BuildInput) : Res (List Nat) := do
  let st ← build chk inp
  let stDone ← runAll chk st
  orPanic (stateToVec stDone)

/-- `UnaryConstrainer::check`: membership. -/
def unaryCheck (socket : Nat) (sockets : List Nat) : Bool := socket ∈ sockets

/-! ## Lemmas: ordered sets -/

theorem mem_ordInsert (b : List Nat) (x j : Nat) :
    j ∈ ordInsert b x ↔ j ∈ b ∨ j = x := by
  unfold ordInsert
  by_cases hx : x ∈ b
  · simp only [if_pos hx]
    constructor
    · exact fun h => Or.inl h
    · rintro (h | rfl)
      · exact h
      · exact hx
  · simp [if_neg hx]

theorem nodup_ordInsert (b : List Nat) (hnd : b.Nodup) (x : Nat) :
    (ordInsert b x).Nodup := by
  unfold ordInsert
  by_cases hx : x ∈ b
  · simpa [if_pos hx]
  · rw [if_neg hx]
    exact List.nodup_append.2 ⟨hnd, List.nodup_singleton x,
      by intro a ha hb; simp only [List.mem_singleton] at hb; exact hx (hb ▸ ha)⟩

theorem getLastD_of_ne_nil (b : List Nat) (h : b ≠ []) :
    b.getLastD 0 = b.getLast h := by
  cases b with
  | nil => exact absurd rfl h
  | cons a l => simp [List.getLastD_eq_getLast?, List.getLast?_eq_getLast]

theorem dropLast_append_getLastD (b : List Nat) (h : b ≠ []) :
    b.dropLast ++ [b.getLastD 0] = b := by
  rw [getLastD_of_ne_nil b h]
  exact List.dropLast_append_getLast h

theorem mem_swapRemove (b : List Nat) (hnd : b.Nodup) (x j : Nat) :
    j ∈ swapRemove b x ↔ j ∈ b ∧ j ≠ x := by
  unfold swapRemove
  by_cases hx : x ∈ b
  · have hne : b ≠ [] := List.ne_nil_of_mem hx
    have hdec : b.dropLast ++ [b.getLastD 0] = b := dropLast_append_getLastD b hne
    have hnd2 : (b.dropLast ++ [b.getLastD 0]).Nodup := by rw [hdec]; exact hnd
    have hlast_not : b.getLastD 0 ∉ b.dropLast := fun hmem =>
      (List.nodup_append.1 hnd2).2.2 hmem (List.mem_singleton_self _)
    have hmemb : ∀ z, z ∈ b ↔ z ∈ b.dropLast ∨ z = b.getLastD 0 := by
      intro z
      constructor
      · intro hz
        have hz2 : z ∈ b.dropLast ++ [b.getLastD 0] := by rw [hdec]; exact hz
        simpa using hz2
      · intro hz
        have hz2 : z ∈ b.dropLast ++ [b.getLastD 0] := by
          simpa using hz
        rw [hdec] at hz2
        exact hz2
    rw [if_pos hx]
    by_cases hxl : x = b.getLastD 0
    · rw [if_pos hxl]
      constructor
      · intro hj
        refine ⟨(hmemb j).2 (Or.inl hj), ?_⟩
        intro hjx
        rw [hjx, hxl] at hj
        exact hlast_not hj
      · rintro ⟨hj, hjx⟩
        rcases (hmemb j).1 hj with h | h
        · exact h
        · exact absurd (h.trans hxl.symm) hjx
    · rw [if_neg hxl]
      have hxd : x ∈ b.dropLast := by
        rcases (hmemb x).1 hx with h | h
        · exact h
        · exact absurd h hxl
      constructor
      · intro hj
        rcases List.mem_map.1 hj with ⟨y, hy, hfy⟩
        by_cases hyx : y = x
        · rw [if_pos hyx] at hfy
          subst hfy
          exact ⟨(hmemb _).2 (Or.inr rfl), fun h => hxl h.symm⟩
        · rw [if_neg hyx] at hfy
          subst hfy
          exact ⟨(hmemb y).2 (Or.inl hy), hyx⟩
      · rintro ⟨hj, hjx⟩
        rcases (hmemb j).1 hj with h | h
        · exact List.mem_map.2 ⟨j, h, if_neg hjx⟩
        · exact List.mem_map.2 ⟨x, hxd, by rw [if_pos rfl, h]⟩
  · rw [if_neg hx]
    constructor
    · intro hj
      exact ⟨hj, fun h => hx (h ▸ hj)⟩
    · exact fun h => h.1

theorem nodup_swapRemove (b : List Nat) (hnd : b.Nodup) (x : Nat) :
    (swapRemove b x).Nodup := by
  unfold swapRemove
  by_cases hx : x ∈ b
  · have hne : b ≠ [] := List.ne_nil_of_mem hx
    have hdec : b.dropLast ++ [b.getLastD 0] = b := dropLast_append_getLastD b hne
    have hnd2 : (b.dropLast ++ [b.getLastD 0]).Nodup := by rw [hdec]; exact hnd
    have hnd1 : b.dropLast.Nodup := (List.nodup_append.1 hnd2).1
    have hlast_not : b.getLastD 0 ∉ b.dropLast := fun hmem =>
      (List.nodup_append.1 hnd2).2.2 hmem (List.mem_singleton_self _)
    rw [if_pos hx]
    by_cases hxl : x = b.getLastD 0
    · rw [if_pos hxl]; exact hnd1
    · rw [if_neg hxl]
      refine List.Nodup.map_on ?_ hnd1
      intro y1 h1 y2 h2 heq
      by_cases e1 : y1 = x <;> by_cases e2 : y2 = x
      · rw [e1, e2]
      · rw [if_pos e1, if_neg e2] at heq
        exact absurd (heq ▸ h2) hlast_not
      · rw [if_neg e1, if_pos e2] at heq
        exact absurd (heq.symm ▸ h1) hlast_not
      · rw [if_neg e1, if_neg e2] at heq
        exact heq
  · rw [if_neg hx]; exact hnd

/-! ## Lemmas: the entropy cache -/

theorem getBucket_isSome (c : EntropyCache) {e : Nat} (h1 : 1 ≤ e)
    (h2 : e ≤ c.buckets.length) : ∃ b, c.getBucket e = some b := by
  unfold EntropyCache.getBucket
  rw [if_neg (by omega)]
  have hlt : e - 1 < c.buckets.length := by omega
  rcases List.get?_eq_get hlt with h
  exact ⟨_, h⟩

theorem getBucket_bounds (c : EntropyCache) {e : Nat} {b : List Nat}
    (h : c.getBucket e = some b) : 1 ≤ e ∧ e ≤ c.buckets.length := by
  unfold EntropyCache.getBucket at h
  by_cases he : e = 0
  · rw [if_pos he] at h; exact absurd h (by simp)
  · rw [if_neg he] at h
    obtain ⟨hlt, _⟩ := List.get?_eq_some.1 h
    omega

theorem putBucket_isSome (c : EntropyCache) {e : Nat} (b : List Nat) (h1 : 1 ≤ e)
    (h2 : e ≤ c.buckets.length) : ∃ c', c.putBucket e b = some c' := by
  unfold EntropyCache.putBucket
  rw [if_neg (by omega)]
  exact ⟨_, rfl⟩

theorem putBucket_length (c : EntropyCache) {e : Nat} {b : List Nat}
    {c' : EntropyCache} (h : c.putBucket e b = some c') :
    c'.buckets.length = c.buckets.length := by
  unfold EntropyCache.putBucket at h
  by_cases hc : e = 0 ∨ c.buckets.length < e
  · rw [if_pos hc] at h; exact absurd h (by simp)
  · rw [if_neg hc] at h
    cases h
    simp

theorem getBucket_putBucket (c : EntropyCache) {e : Nat} {b : List Nat}
    {c' : EntropyCache} (h : c.putBucket e b = some c') (e' : Nat) :
    c'.getBucket e' = if e' = e then some b else c.getBucket e' := by
  unfold EntropyCache.putBucket at h
  by_cases hc : e = 0 ∨ c.buckets.length < e
  · rw [if_pos hc] at h; exact absurd h (by simp)
  · rw [if_neg hc] at h
    cases h
    push_neg at hc
    unfold EntropyCache.getBucket
    by_cases he' : e' = e
    · subst he'
      rw [if_pos rfl, if_neg (by omega)]
      have hlt : e' - 1 < c.buckets.length := by omega
      exact List.get?_set_eq_of_lt b hlt
    · rw [if_neg he']
      by_cases hz : e' = 0
      · rw [if_pos hz, if_pos hz]
      · rw [if_neg hz, if_neg hz]
        have hne2 : e - 1 ≠ e' - 1 := by omega
        exact List.get?_set_ne b _ hne2

theorem entropy_set_spec (c : EntropyCache) (sE i nE : Nat)
    (hs1 : 1 ≤ sE) (hs2 : sE ≤ c.buckets.length)
    (hn1 : 1 ≤ nE) (hn2 : nE ≤ c.buckets.length) :
    ∃ bs c', c.getBucket sE = some bs ∧ EntropyCache.set c sE i nE = some c' ∧
      c'.buckets.length = c.buckets.length ∧
      (∀ e, e ≠ sE → e ≠ nE → c'.getBucket e = c.getBucket e) ∧
      (if sE = nE
       then c'.getBucket nE = some (ordInsert (swapRemove bs i) i)
       else ∃ bn, c.getBucket nE = some bn ∧
         c'.getBucket sE = some (swapRemove bs i) ∧
         c'.getBucket nE = some (ordInsert bn i)) := by
  obtain ⟨bs, hbs⟩ := getBucket_isSome c hs1 hs2
  obtain ⟨c1, hc1⟩ := putBucket_isSome c (swapRemove bs i) hs1 hs2
  have hlen1 : c1.buckets.length = c.buckets.length := putBucket_length c hc1
  have hget1 := getBucket_putBucket c hc1
  obtain ⟨b2, hb2⟩ := getBucket_isSome c1 hn1 (by omega)
  obtain ⟨c', hc'⟩ := putBucket_isSome c1 (ordInsert b2 i) hn1 (by omega)
  have hlen2 : c'.buckets.length = c1.buckets.length := putBucket_length c1 hc'
  have hget2 := getBucket_putBucket c1 hc'
  refine ⟨bs, c', hbs, ?_, by omega, ?_, ?_⟩
  · unfold EntropyCache.set
    rw [hbs]
    simp only [Option.bind_eq_bind, Option.some_bind]
    rw [hc1]
    simp only [Option.some_bind]
    rw [hb2]
    simp only [Option.some_bind]
    exact hc'
  · intro e hes hen
    rw [hget2 e, if_neg hen, hget1 e, if_neg hes]
  · by_cases hsn : sE = nE
    · rw [if_pos hsn]
      subst hsn
      have : b2 = swapRemove bs i := by
        have := hget1 sE
        rw [if_pos rfl] at this
        rw [this] at hb2
        exact (Option.some_inj.1 hb2).symm
      rw [hget2 sE, if_pos rfl, this]
    · rw [if_neg hsn]
      have hbn : c.getBucket nE = some b2 := by
        have := hget1 nE
        rw [if_neg (fun h => hsn h.symm)] at this
        rw [← this]
        exact hb2
      refine ⟨b2, hbn, ?_, ?_⟩
      · rw [hget2 sE, if_neg hsn, hget1 sE, if_pos rfl]
      · rw [hget2 nE, if_pos rfl]

theorem clear_entry_spec (c : EntropyCache) (e i : Nat)
    (h1 : 1 ≤ e) (h2 : e ≤ c.buckets.length) :
    ∃ bs c', c.getBucket e = some bs ∧ c.clear_entry e i = some c' ∧
      c'.buckets.length = c.buckets.length ∧
      c'.getBucket e = some (swapRemove bs i) ∧
      (∀ e', e' ≠ e → c'.getBucket e' = c.getBucket e') := by
  obtain ⟨bs, hbs⟩ := getBucket_isSome c h1 h2
  obtain ⟨c', hc'⟩ := putBucket_isSome c (swapRemove bs i) h1 h2
  have hget := getBucket_putBucket c hc'
  refine ⟨bs, c', hbs, ?_, putBucket_length c hc', ?_, ?_⟩
  · unfold EntropyCache.clear_entry
    rw [hbs]
    simp only [Option.bind_eq_bind, Option.some_bind]
    exact hc'
  · rw [hget e, if_pos rfl]
  · intro e' he'
    rw [hget e', if_neg he']

theorem lowest_spec (c : EntropyCache) {b : List Nat}
    (h : c.lowest = some b) : ∃ e, c.getBucket e = some b ∧ b ≠ [] := by
  unfold EntropyCache.lowest at h
  have hmem := List.mem_of_find?_eq_some h
  have hp := List.find?_some h
  rcases List.mem_iff_get?.1 hmem with ⟨k, hk⟩
  refine ⟨k + 1, ?_, ?_⟩
  · unfold EntropyCache.getBucket
    rw [if_neg (by omega)]
    simpa using hk
  · intro hnil
    rw [hnil] at hp
    simp at hp

/-! ## Lemmas: the socket cache -/

theorem mem_socketsOf (rules : Rules) (variants : List Nat) (d x : Nat) :
    x ∈ socketsOf rules variants d ↔
      ∃ v ∈ variants, ∃ r, rules.rule_for v = some r ∧ r.socket_for d = some x := by
  unfold socketsOf
  rw [List.mem_filterMap]
  constructor
  · rintro ⟨v, hv, hb⟩
    rcases ho : rules.rule_for v with _ | r
    · rw [ho] at hb; simp at hb
    · rw [ho] at hb
      simp only [Option.some_bind] at hb
      exact ⟨v, hv, r, ho, hb⟩
  · rintro ⟨v, hv, r, hr, hs⟩
    refine ⟨v, hv, ?_⟩
    rw [hr]
    simpa

/-- Coherence of the socket cache: every stored entry is the union computed
from the rules. -/
def Coherent (rules : Rules) (cache : SocketCache) : Prop :=
  ∀ key dir s, cache.lookup key dir = some (some s) → s = socketsOf rules key dir

theorem coherent_empty (rules : Rules) : Coherent rules SocketCache.empty := by
  intro key dir s h
  simp [SocketCache.lookup, SocketCache.empty, List.find?] at h

theorem find?_key_singleton (key : List Nat) (v : List (Nat × List Nat))
    (k' : List Nat) :
    ([(key, v)].find? (fun e => e.1 == k')) = if key = k' then some (key, v) else none := by
  by_cases h : key = k'
  · rw [List.find?_cons_of_pos _ (by simpa using h), if_pos h]
  · rw [List.find?_cons_of_neg _ (by simpa using h), List.find?_nil, if_neg h]

theorem find?_dir_singleton (d : Nat) (s : List Nat) (d' : Nat) :
    ([(d, s)].find? (fun de => de.1 == d')) = if d = d' then some (d, s) else none := by
  by_cases h : d = d'
  · rw [List.find?_cons_of_pos _ (by simpa using h), if_pos h]
  · rw [List.find?_cons_of_neg _ (by simpa using h), List.find?_nil, if_neg h]

theorem find?_bump (tbl : List (List Nat × List (Nat × List Nat))) (key : List Nat)
    (d : Nat) (s : List Nat) (k' : List Nat) :
    (tbl.map (fun e => if e.1 == key then (e.1, e.2 ++ [(d, s)]) else e)).find?
        (fun e => e.1 == k')
      = (tbl.find? (fun e => e.1 == k')).map
          (fun e => if e.1 == key then (e.1, e.2 ++ [(d, s)]) else e) := by
  induction tbl with
  | nil => rfl
  | cons a t ih =>
    simp only [List.map_cons]
    have hfst : ((if a.1 == key then (a.1, a.2 ++ [(d, s)]) else a).1) = a.1 := by
      by_cases hak : (a.1 == key) = true
      · rw [if_pos hak]
      · rw [if_neg hak]
    by_cases ha : (a.1 == k') = true
    · simp only [List.find?_cons, hfst, ha, Option.map_some']
    · rw [Bool.not_eq_true] at ha
      simp only [List.find?_cons, hfst, ha, ih]

theorem lookup_appendNew (c : SocketCache) (key : List Nat) (d : Nat) (s : List Nat)
    (hmiss : c.table.find? (fun e => e.1 == key) = none) (k' : List Nat) (d' : Nat) :
    SocketCache.lookup ⟨c.table ++ [(key, [(d, s)])]⟩ k' d'
      = if k' = key
        then some (if d' = d then some s else none)
        else c.lookup k' d' := by
  unfold SocketCache.lookup
  show ((c.table ++ [(key, [(d, s)])]).find? (fun e => e.1 == k')).map _ = _
  rw [List.find?_append]
  by_cases hk : k' = key
  · subst hk
    rw [hmiss, if_pos rfl]
    simp only [Option.none_or]
    rw [find?_key_singleton, if_pos rfl]
    simp only [Option.map_some']
    rw [find?_dir_singleton]
    by_cases hd : d' = d
    · rw [if_pos (hd.symm), if_pos hd]
      rfl
    · rw [if_neg (fun h => hd h.symm), if_neg hd]
      rfl
  · rw [if_neg hk]
    rw [find?_key_singleton, if_neg (fun h => hk h.symm)]
    cases hfind : c.table.find? (fun e => e.1 == k') with
    | none => rfl
    | some e => rfl

theorem lookup_bump_found {c : SocketCache} {k' : List Nat}
    {e : List Nat × List (Nat × List Nat)} (key : List Nat) (d : Nat) (s : List Nat)
    (hfind : c.table.find? (fun e => e.1 == k') = some e) (d' : Nat) :
    SocketCache.lookup ⟨c.table.map (fun e => if e.1 == key then (e.1, e.2 ++ [(d, s)]) else e)⟩ k' d'
      = if e.1 == key
        then some (((e.2 ++ [(d, s)]).find? (fun de => de.1 == d')).map (fun de => de.2))
        else some ((e.2.find? (fun de => de.1 == d')).map (fun de => de.2)) := by
  unfold SocketCache.lookup
  rw [find?_bump, hfind]
  simp only [Option.map_some']
  by_cases he : (e.1 == key) = true
  · rw [if_pos he, if_pos he]
  · rw [if_neg he, if_neg he]

theorem lookup_bump_none {c : SocketCache} {k' : List Nat} (key : List Nat)
    (d : Nat) (s : List Nat)
    (hfind : c.table.find? (fun e => e.1 == k') = none) (d' : Nat) :
    SocketCache.lookup ⟨c.table.map (fun e => if e.1 == key then (e.1, e.2 ++ [(d, s)]) else e)⟩ k' d'
      = none := by
  unfold SocketCache.lookup
  rw [find?_bump, hfind]
  rfl

theorem fetch_eq_hit {cache : SocketCache} {rules : Rules} {variants : List Nat}
    {d : Nat} {s : List Nat} (h : cache.lookup variants d = some (some s)) :
    socketCacheFetch cache rules variants d = some (s, cache) := by
  unfold socketCacheFetch
  rw [h]

theorem fetch_eq_partialHit {cache : SocketCache} {rules : Rules} {variants : List Nat}
    {d : Nat} (h : cache.lookup variants d = some none) :
    socketCacheFetch cache rules variants d = cache.partialCreate rules variants d := by
  unfold socketCacheFetch
  rw [h]

theorem fetch_eq_miss {cache : SocketCache} {rules : Rules} {variants : List Nat}
    {d : Nat} (h : cache.lookup variants d = none) :
    socketCacheFetch cache rules variants d = some (cache.fullCreate rules variants d) := by
  unfold socketCacheFetch
  rw [h]

theorem partialCreate_eq {cache : SocketCache} {rules : Rules} {variants : List Nat}
    {d : Nat} {entry : List Nat × List (Nat × List Nat)}
    (houter : cache.table.find? (fun e => e.1 == variants) = some entry)
    (hinner : entry.2.find? (fun de => de.1 == d) = none) :
    cache.partialCreate rules variants d
      = some (socketsOf rules variants d,
          ⟨cache.table.map (fun e =>
            if e.1 == variants
            then (e.1, e.2 ++ [(d, socketsOf rules variants d)]) else e)⟩) := by
  simp only [SocketCache.partialCreate, houter, hinner]

theorem fullCreate_eq {cache : SocketCache} {rules : Rules} {variants : List Nat}
    {d : Nat} (houter : cache.table.find? (fun e => e.1 == variants) = none) :
    cache.fullCreate rules variants d
      = (socketsOf rules variants d,
          ⟨cache.table ++ [(variants, [(d, socketsOf rules variants d)])]⟩) := by
  simp only [SocketCache.fullCreate, houter]

theorem bump_preserved {cache : SocketCache} {rules : Rules} {variants : List Nat}
    {d : Nat} (k' : List Nat) (d' : Nat) (s' : List Nat)
    (h : cache.lookup k' d' = some (some s')) :
    SocketCache.lookup ⟨cache.table.map (fun e =>
        if e.1 == variants
        then (e.1, e.2 ++ [(d, socketsOf rules variants d)]) else e)⟩ k' d'
      = some (some s') := by
  unfold SocketCache.lookup at h
  rcases hfind : cache.table.find? (fun e => e.1 == k') with _ | e
  · rw [hfind] at h; simp at h
  · rw [hfind] at h
    simp only [Option.map_some', Option.some_inj] at h
    rcases hold : e.2.find? (fun de => de.1 == d') with _ | de0
    · rw [hold] at h; simp at h
    · rw [hold] at h
      simp only [Option.map_some', Option.some_inj] at h
      rw [lookup_bump_found variants d (socketsOf rules variants d) hfind d']
      by_cases hek : (e.1 == variants) = true
      · rw [if_pos hek, List.find?_append, hold]
        show some (some de0.2) = some (some s')
        rw [h]
      · rw [if_neg hek, hold]
        show some (some de0.2) = some (some s')
        rw [h]

theorem bump_new {cache : SocketCache} {rules : Rules} {variants : List Nat}
    {d : Nat} {entry : List Nat × List (Nat × List Nat)}
    (houter : cache.table.find? (fun e => e.1 == variants) = some entry)
    (hinner : entry.2.find? (fun de => de.1 == d) = none) :
    SocketCache.lookup ⟨cache.table.map (fun e =>
        if e.1 == variants
        then (e.1, e.2 ++ [(d, socketsOf rules variants d)]) else e)⟩ variants d
      = some (some (socketsOf rules variants d)) := by
  have hp := @List.find?_some _ (fun e => e.1 == variants) entry cache.table houter
  rw [lookup_bump_found variants d (socketsOf rules variants d) houter d]
  rw [if_pos hp]
  rw [List.find?_append, hinner]
  simp only [Option.none_or]
  rw [find?_dir_singleton, if_pos rfl]
  rfl

theorem bump_coherent {cache : SocketCache} {rules : Rules} {variants : List Nat}
    {d : Nat} (hco : Coherent rules cache) :
    Coherent rules ⟨cache.table.map (fun e =>
        if e.1 == variants
        then (e.1, e.2 ++ [(d, socketsOf rules variants d)]) else e)⟩ := by
  intro k' d' s' h
  rcases hfind : cache.table.find? (fun e => e.1 == k') with _ | e
  · rw [lookup_bump_none variants d (socketsOf rules variants d) hfind d'] at h
    simp at h
  · rw [lookup_bump_found variants d (socketsOf rules variants d) hfind d'] at h
    have hp := @List.find?_some _ (fun e => e.1 == k') e cache.table hfind
    have hk'e : e.1 = k' := eq_of_beq hp
    by_cases hek : (e.1 == variants) = true
    · rw [if_pos hek] at h
      simp only [Option.some_inj] at h
      rw [List.find?_append] at h
      rcases hold : e.2.find? (fun de => de.1 == d') with _ | de0
      · rw [hold] at h
        simp only [Option.none_or] at h
        rw [find?_dir_singleton] at h
        by_cases hdd : d = d'
        · rw [if_pos hdd] at h
          simp only [Option.map_some', Option.some_inj] at h
          have hkv : k' = variants := by rw [← hk'e]; exact eq_of_beq hek
          rw [← h, hkv, ← hdd]
        · rw [if_neg hdd] at h
          simp at h
      · rw [hold] at h
        have h2 : some de0.2 = some s' := h
        simp only [Option.some_inj] at h2
        have hlkold : cache.lookup k' d' = some (some de0.2) := by
          unfold SocketCache.lookup
          rw [hfind]
          simp only [Option.map_some']
          rw [hold]
          rfl
        rw [← h2]
        exact hco k' d' de0.2 hlkold
    · rw [if_neg hek] at h
      simp only [Option.some_inj] at h
      rcases hold : e.2.find? (fun de => de.1 == d') with _ | de0
      · rw [hold] at h; simp at h
      · rw [hold] at h
        simp only [Option.map_some', Option.some_inj] at h
        have hlkold : cache.lookup k' d' = some (some de0.2) := by
          unfold SocketCache.lookup
          rw [hfind]
          simp only [Option.map_some']
          rw [hold]
          rfl
        rw [← h]
        exact hco k' d' de0.2 hlkold

theorem socketCacheFetch_spec (cache : SocketCache) (rules : Rules)
    (variants : List Nat) (d : Nat) (hco : Coherent rules cache) :
    ∃ cache', socketCacheFetch cache rules variants d
        = some (socketsOf rules variants d, cache') ∧
      Coherent rules cache' ∧
      (∀ k' d' s', cache.lookup k' d' = some (some s') →
        cache'.lookup k' d' = some (some s')) ∧
      cache'.lookup variants d = some (some (socketsOf rules variants d)) := by
  cases hlk : cache.lookup variants d with
  | some o =>
    cases o with
    | some s =>
      have hs : s = socketsOf rules variants d := hco variants d s hlk
      subst hs
      exact ⟨cache, fetch_eq_hit hlk, hco, fun _ _ _ h => h, hlk⟩
    | none =>
      unfold SocketCache.lookup at hlk
      rcases houter : cache.table.find? (fun e => e.1 == variants) with _ | entry
      · rw [houter] at hlk; simp at hlk
      · rw [houter] at hlk
        simp only [Option.map_some', Option.some_inj] at hlk
        have hinner : entry.2.find? (fun de => de.1 == d) = none :=
          Option.map_eq_none'.1 hlk
        refine ⟨_, ?_, bump_coherent hco, bump_preserved, bump_new houter hinner⟩
        rw [fetch_eq_partialHit (by
          unfold SocketCache.lookup
          rw [houter]
          simp only [Option.map_some']
          rw [hinner]
          rfl)]
        exact partialCreate_eq houter hinner
  | none =>
    unfold SocketCache.lookup at hlk
    have houter : cache.table.find? (fun e => e.1 == variants) = none :=
      Option.map_eq_none'.1 hlk
    refine ⟨⟨cache.table ++ [(variants, [(d, socketsOf rules variants d)])]⟩, ?_, ?_, ?_, ?_⟩
    · rw [fetch_eq_miss (by
        unfold SocketCache.lookup
        rw [houter]
        rfl)]
      rw [fullCreate_eq houter]
    · intro k' d' s' h
      rw [lookup_appendNew _ _ _ _ houter] at h
      by_cases hk : k' = variants
      · rw [if_pos hk] at h
        simp only [Option.some_inj] at h
        by_cases hd : d' = d
        · rw [if_pos hd] at h
          cases h
          rw [hk, hd]
        · rw [if_neg hd] at h; simp at h
      · rw [if_neg hk] at h
        exact hco k' d' s' h
    · intro k' d' s' h
      rw [lookup_appendNew _ _ _ _ houter]
      by_cases hk : k' = variants
      · subst hk
        unfold SocketCache.lookup at h
        rw [houter] at h
        simp at h
      · rw [if_neg hk]
        exact h
    · rw [lookup_appendNew _ _ _ _ houter, if_pos rfl, if_pos rfl]

/-! ## Lemmas: `State::constrain` -/

theorem constrain_total (cell : Cell) (chk : Nat → List Nat → Bool) (P : List Nat)
    (d : Nat) (rules : Rules) (cache : SocketCache) (hco : Coherent rules cache) :
    ∃ cache', Coherent rules cache' ∧
      (∀ k' d' s', cache.lookup k' d' = some (some s') →
        cache'.lookup k' d' = some (some s')) ∧
      cache'.lookup P d = some (some (socketsOf rules P d)) ∧
      (let newPoss := cell.possibilities.filter
          (keepCheck chk rules (oppositeDir d) (socketsOf rules P d))
       if newPoss.isEmpty then
        (match posAdd cell.position (oppositeDir d) with
         | some npos =>
            constrain cell chk P d rules cache = .err (.contradiction cell.position npos)
         | none => constrain cell chk P d rules cache = .panicked)
       else constrain cell chk P d rules cache
          = .ok (⟨newPoss, newPoss.length, cell.isCollapsed, cell.neighbors,
              cell.position⟩, cache')) := by
  obtain ⟨cache', hfetch, hco', hpres, hentry⟩ :=
    socketCacheFetch_spec cache rules P d hco
  refine ⟨cache', hco', hpres, hentry, ?_⟩
  unfold constrain
  rw [hfetch]
  by_cases hempty : (cell.possibilities.filter
      (keepCheck chk rules (oppositeDir d) (socketsOf rules P d))).isEmpty = true
  · cases hpa : posAdd cell.position (oppositeDir d) with
    | some npos => simp [hempty, hpa]
    | none => simp [hempty, hpa]
  · rw [Bool.not_eq_true] at hempty
    simp [hempty]

theorem constrain_ok_spec {cell : Cell} {chk : Nat → List Nat → Bool} {P : List Nat}
    {d : Nat} {rules : Rules} {cache : SocketCache} {cell' : Cell} {cache' : SocketCache}
    (hco : Coherent rules cache)
    (h : constrain cell chk P d rules cache = .ok (cell', cache')) :
    cell' = ⟨cell.possibilities.filter
        (keepCheck chk rules (oppositeDir d) (socketsOf rules P d)),
      (cell.possibilities.filter
        (keepCheck chk rules (oppositeDir d) (socketsOf rules P d))).length,
      cell.isCollapsed, cell.neighbors, cell.position⟩ ∧
    cell'.possibilities ≠ [] ∧
    Coherent rules cache' ∧
    (∀ k' d' s', cache.lookup k' d' = some (some s') →
      cache'.lookup k' d' = some (some s')) ∧
    cache'.lookup P d = some (some (socketsOf rules P d)) := by
  obtain ⟨cache0, hco0, hpres0, hentry0, hbody⟩ :=
    constrain_total cell chk P d rules cache hco
  simp only at hbody
  by_cases hempty : (cell.possibilities.filter
      (keepCheck chk rules (oppositeDir d) (socketsOf rules P d))).isEmpty = true
  · rw [if_pos hempty] at hbody
    cases hpa : posAdd cell.position (oppositeDir d) with
    | some npos => rw [hpa] at hbody; rw [hbody] at h; cases h
    | none => rw [hpa] at hbody; rw [hbody] at h; cases h
  · rw [if_neg hempty] at hbody
    rw [hbody] at h
    have hinj := h
    simp only [Res.ok.injEq, Prod.mk.injEq] at hinj
    obtain ⟨hcell, hcache⟩ := hinj
    subst hcache
    subst hcell
    refine ⟨rfl, ?_, hco0, hpres0, hentry0⟩
    intro hnil
    apply hempty
    have hnil2 : cell.possibilities.filter
        (keepCheck chk rules (oppositeDir d) (socketsOf rules P d)) = [] := hnil
    rw [hnil2]
    rfl

theorem constrain_err_spec {cell : Cell} {chk : Nat → List Nat → Bool} {P : List Nat}
    {d : Nat} {rules : Rules} {cache : SocketCache} {e : Err}
    (hco : Coherent rules cache)
    (h : constrain cell chk P d rules cache = .err e) :
    cell.possibilities.filter
        (keepCheck chk rules (oppositeDir d) (socketsOf rules P d)) = [] ∧
    ∃ npos, posAdd cell.position (oppositeDir d) = some npos ∧
      e = .contradiction cell.position npos := by
  obtain ⟨cache0, _, _, _, hbody⟩ := constrain_total cell chk P d rules cache hco
  simp only at hbody
  by_cases hempty : (cell.possibilities.filter
      (keepCheck chk rules (oppositeDir d) (socketsOf rules P d))).isEmpty = true
  · rw [if_pos hempty] at hbody
    refine ⟨List.isEmpty_iff.1 hempty, ?_⟩
    cases hpa : posAdd cell.position (oppositeDir d) with
    | some npos =>
      rw [hpa] at hbody
      rw [hbody] at h
      cases h
      exact ⟨npos, rfl, rfl⟩
    | none =>
      rw [hpa] at hbody
      rw [hbody] at h
      cases h
  · rw [if_neg hempty] at hbody
    rw [hbody] at h
    cases h

theorem keepCheck_iff (chk : Nat → List Nat → Bool) (rules : Rules) (opp : Nat)
    (sockets : List Nat) (v : Nat) :
    keepCheck chk rules opp sockets v = true ↔
      ∃ r s, rules.rule_for v = some r ∧ r.socket_for opp = some s ∧
        chk s sockets = true := by
  unfold keepCheck
  cases h : rules.rule_for v with
  | none =>
    constructor
    · intro hfalse
      exact Bool.noConfusion hfalse
    · rintro ⟨r, s, hr, _, _⟩
      exact Option.noConfusion hr
  | some r =>
    show (match r.socket_for opp with
          | some socket => chk socket sockets
          | none => false) = true ↔ _
    cases h2 : r.socket_for opp with
    | none =>
      constructor
      · intro hfalse
        exact Bool.noConfusion hfalse
      · rintro ⟨r2, s2, hr2, hs2, _⟩
        injection hr2 with he
        subst he
        rw [h2] at hs2
        exact Option.noConfusion hs2
    | some s =>
      constructor
      · intro hchk
        exact ⟨r, s, rfl, h2, hchk⟩
      · rintro ⟨r2, s2, hr2, hs2, hchk⟩
        injection hr2 with he
        subst he
        rw [h2] at hs2
        injection hs2 with he2
        subst he2
        exact hchk

/-- Claim C1: when the propagation step constrains an uncollapsed neighbor
(here `cell`) against the candidate set `P` of the processed cell, reached in
direction `d`, it retains exactly the variants whose rule exists, has a socket
for `opposite d`, and whose socket the constraint accepts against the socket
set `P` exposes in direction `d`; and when the candidate set becomes empty the
step raises the `Contradiction` error and halts. The hypothesis `Coherent`
holds of every cache the engine builds (it starts empty and is only extended
with computed unions). -/
theorem c1_constrain_retention (cell : Cell) (chk : Nat → List Nat → Bool)
    (P : List Nat) (d : Nat) (rules : Rules) (cache : SocketCache)
    (hco : Coherent rules cache) :
    (∀ cell' cache', constrain cell chk P d rules cache = .ok (cell', cache') →
      ∀ v, v ∈ cell'.possibilities ↔
        v ∈ cell.possibilities ∧ ∃ r s, rules.rule_for v = some r ∧
          r.socket_for (oppositeDir d) = some s ∧
          chk s (socketsOf rules P d) = true) ∧
    (∀ npos, posAdd cell.position (oppositeDir d) = some npos →
      cell.possibilities.filter
        (keepCheck chk rules (oppositeDir d) (socketsOf rules P d)) = [] →
      constrain cell chk P d rules cache = .err (.contradiction cell.position npos)) := by
  constructor
  · intro cell' cache' h v
    obtain ⟨hcell, _, _, _, _⟩ := constrain_ok_spec hco h
    rw [hcell]
    show v ∈ cell.possibilities.filter
        (keepCheck chk rules (oppositeDir d) (socketsOf rules P d)) ↔ _
    rw [List.mem_filter, keepCheck_iff]
  · intro npos hpa hfilter
    obtain ⟨cache0, _, _, _, hbody⟩ := constrain_total cell chk P d rules cache hco
    simp only at hbody
    rw [if_pos (by rw [hfilter]; rfl), hpa] at hbody
    exact hbody

def ruleBadW : Rule := ⟨[(0, 1), (1, 0)]⟩

def rulesBadW : Rules := ⟨[(0, ruleBadW)]⟩

def cellBadW : Cell := ⟨[0], 1, false, [(0, 0)], [1]⟩

/-- Witness for C1: a cell whose single candidate requires socket `1` on its
left while the neighbor exposes only socket `0`; the constrain step raises the
contradiction. -/
theorem c1_constrain_retention_witness :
    constrain cellBadW unaryCheck [0] 1 rulesBadW SocketCache.empty
      = .err (.contradiction [1] [0]) :=
  (c1_constrain_retention cellBadW unaryCheck [0] 1 rulesBadW SocketCache.empty
    (coherent_empty rulesBadW)).2 [0] (by decide) (by decide)

/-- Claim C6: the socket set produced by the socket cache — computed fresh on
a miss or returned from an earlier insertion — is the union over the candidate
variants of their socket toward `d` (variants with no rule or no entry
contribute nothing); entries are never invalidated, and a second fetch of the
same key returns the identical set. -/
theorem c6_socket_cache (rules : Rules) (cache : SocketCache) (variants : List Nat)
    (d : Nat) (hco : Coherent rules cache) :
    (∀ x, x ∈ socketsOf rules variants d ↔
      ∃ v ∈ variants, ∃ r, rules.rule_for v = some r ∧ r.socket_for d = some x) ∧
    ∃ cache', socketCacheFetch cache rules variants d
        = some (socketsOf rules variants d, cache') ∧
      Coherent rules cache' ∧
      cache'.lookup variants d = some (some (socketsOf rules variants d)) ∧
      (∀ k' d' s', cache.lookup k' d' = some (some s') →
        cache'.lookup k' d' = some (some s')) ∧
      socketCacheFetch cache' rules variants d
        = some (socketsOf rules variants d, cache') := by
  refine ⟨mem_socketsOf rules variants d, ?_⟩
  obtain ⟨cache', hf, hco', hpres, hent⟩ := socketCacheFetch_spec cache rules variants d hco
  exact ⟨cache', hf, hco', hent, hpres, fetch_eq_hit hent⟩

def ruleBothW : Rule := ⟨[(0, 0), (1, 0)]⟩

def rulesW : Rules := ⟨[(0, ruleBothW), (1, ruleBothW)]⟩

/-- Witness for C6 on a concrete two-variant rule set and the empty cache. -/
theorem c6_socket_cache_witness :
    ∃ cache', socketCacheFetch SocketCache.empty rulesW [0, 1] 0
        = some (socketsOf rulesW [0, 1] 0, cache') ∧
      Coherent rulesW cache' ∧
      cache'.lookup [0, 1] 0 = some (some (socketsOf rulesW [0, 1] 0)) ∧
      (∀ k' d' s', SocketCache.empty.lookup k' d' = some (some s') →
        cache'.lookup k' d' = some (some s')) ∧
      socketCacheFetch cache' rulesW [0, 1] 0
        = some (socketsOf rulesW [0, 1] 0, cache') :=
  (c6_socket_cache rulesW SocketCache.empty [0, 1] 0 (coherent_empty rulesW)).2

/-! ## Lemmas: monotone shrinkage -/

/-- `Shrinks a b`: `b` differs from `a` only by pointwise-shrunken candidate
sets (the entropy cache may differ arbitrarily). -/
def Shrinks (a b : Cells) : Prop :=
  b.size = a.size ∧ b.list.length = a.list.length ∧
  ∀ i ca cb, a.list.get? i = some ca → b.list.get? i = some cb →
    cb.possibilities ⊆ ca.possibilities

theorem shrinks_refl (a : Cells) : Shrinks a a := by
  refine ⟨rfl, rfl, ?_⟩
  intro i ca cb h1 h2
  rw [h1] at h2
  cases h2
  exact fun x hx => hx

theorem shrinks_cache (a : Cells) (ec : EntropyCache) :
    Shrinks a ⟨a.size, a.list, ec⟩ := by
  refine ⟨rfl, rfl, ?_⟩
  intro i ca cb h1 h2
  rw [h1] at h2
  cases h2
  exact fun x hx => hx

theorem shrinks_trans {a b c : Cells} (h1 : Shrinks a b) (h2 : Shrinks b c) :
    Shrinks a c := by
  obtain ⟨hs1, hl1, hp1⟩ := h1
  obtain ⟨hs2, hl2, hp2⟩ := h2
  refine ⟨hs2.trans hs1, hl2.trans hl1, ?_⟩
  intro i ca cc ha hc
  have hlt : i < b.list.length := by
    rw [hl1]
    exact (List.get?_eq_some.1 ha).choose
  have hb : b.list.get? i = some (b.list.get ⟨i, hlt⟩) := List.get?_eq_get hlt
  exact fun x hx => hp1 i ca _ ha hb (hp2 i _ cc hb hc hx)

theorem shrinks_set {a : Cells} {i : Nat} {c : Cell} (c' : Cell) (ec : EntropyCache)
    (h : a.list.get? i = some c) (hsub : c'.possibilities ⊆ c.possibilities) :
    Shrinks a ⟨a.size, a.list.set i c', ec⟩ := by
  refine ⟨rfl, by simp, ?_⟩
  intro j ca cb h1 h2
  by_cases hij : i = j
  · subst hij
    rw [h1] at h
    cases h
    have hlt : i < a.list.length := (List.get?_eq_some.1 h1).choose
    rw [List.get?_set_eq_of_lt c' hlt] at h2
    cases h2
    exact hsub
  · rw [List.get?_set_ne c' _ hij, h1] at h2
    cases h2
    exact fun x hx => hx

theorem swapRemove_subset (b : List Nat) (x : Nat) : swapRemove b x ⊆ b := by
  unfold swapRemove
  by_cases hx : x ∈ b
  · have hne : b ≠ [] := List.ne_nil_of_mem hx
    have hdec : b.dropLast ++ [b.getLastD 0] = b := dropLast_append_getLastD b hne
    have hdl : b.dropLast ⊆ b := (List.dropLast_sublist b).subset
    have hlmem : b.getLastD 0 ∈ b := by
      have : b.getLastD 0 ∈ b.dropLast ++ [b.getLastD 0] := by simp
      rw [hdec] at this
      exact this
    rw [if_pos hx]
    by_cases hxl : x = b.getLastD 0
    · rw [if_pos hxl]
      exact hdl
    · rw [if_neg hxl]
      intro j hj
      rcases List.mem_map.1 hj with ⟨y, hy, hfy⟩
      by_cases hyx : y = x
      · rw [if_pos hyx] at hfy
        rw [← hfy]
        exact hlmem
      · rw [if_neg hyx] at hfy
        rw [← hfy]
        exact hdl hy
  · rw [if_neg hx]
    exact fun j hj => hj

theorem chooseFrom_mem {l : List Nat} {r r' : Rng} {x : Nat}
    (h : chooseFrom l r = (some x, r')) : x ∈ l := by
  unfold chooseFrom at h
  simp only [Prod.mk.injEq] at h
  exact List.get?_mem h.1

theorem constrain_ok_shape {cell : Cell} {chk : Nat → List Nat → Bool} {P : List Nat}
    {d : Nat} {rules : Rules} {cache : SocketCache} {cell' : Cell} {cache' : SocketCache}
    (h : constrain cell chk P d rules cache = .ok (cell', cache')) :
    ∃ sockets, cell' = ⟨cell.possibilities.filter
        (keepCheck chk rules (oppositeDir d) sockets),
      (cell.possibilities.filter (keepCheck chk rules (oppositeDir d) sockets)).length,
      cell.isCollapsed, cell.neighbors, cell.position⟩ := by
  unfold constrain at h
  cases hf : socketCacheFetch cache rules P d with
  | none =>
    rw [hf] at h
    exact Res.noConfusion h
  | some pr =>
    obtain ⟨sockets, cache0⟩ := pr
    rw [hf] at h
    simp only at h
    by_cases hempty : (cell.possibilities.filter
        (keepCheck chk rules (oppositeDir d) sockets)).isEmpty = true
    · rw [if_pos hempty] at h
      cases hpa : posAdd cell.position (oppositeDir d) with
      | some npos =>
        rw [hpa] at h
        exact Res.noConfusion h
      | none =>
        rw [hpa] at h
        exact Res.noConfusion h
    · rw [if_neg hempty] at h
      simp only [Res.ok.injEq, Prod.mk.injEq] at h
      exact ⟨sockets, h.1.symm⟩


theorem constrain_ok_subset {cell : Cell} {chk : Nat → List Nat → Bool} {P : List Nat}
    {d : Nat} {rules : Rules} {cache : SocketCache} {cell' : Cell} {cache' : SocketCache}
    (h : constrain cell chk P d rules cache = .ok (cell', cache')) :
    cell'.possibilities ⊆ cell.possibilities ∧
    cell'.isCollapsed = cell.isCollapsed ∧
    cell'.neighbors = cell.neighbors ∧
    cell'.position = cell.position := by
  obtain ⟨sockets, hshape⟩ := constrain_ok_shape h
  rw [hshape]
  exact ⟨fun x hx => (List.mem_filter.1 hx).1, rfl, rfl, rfl⟩

theorem shrinks_eqlist {a b : Cells} (hl : b.list = a.list) (hs : b.size = a.size) :
    Shrinks a b := by
  refine ⟨hs, by rw [hl], ?_⟩
  intro i ca cb h1 h2
  rw [hl, h1] at h2
  cases h2
  exact fun x hx => hx

theorem set_entropy_shape {cs : Cells} {a i b : Nat} {cs' : Cells}
    (h : cs.set_entropy a i b = some cs') :
    cs'.list = cs.list ∧ cs'.size = cs.size ∧
    cs.entropy_cache.set a i b = some cs'.entropy_cache := by
  unfold Cells.set_entropy at h
  cases hset : cs.entropy_cache.set a i b with
  | none =>
    rw [hset] at h
    exact Option.noConfusion h
  | some ec =>
    rw [hset] at h
    simp only [Option.map_some', Option.some_inj] at h
    rw [← h]
    exact ⟨rfl, rfl, rfl⟩

theorem propagateNeighbors_shrinks (chk : Nat → List Nat → Bool) (rules : Rules)
    (ci : Nat) :
    ∀ (nbrs : List (Nat × Nat)) (cells : Cells) (cache : SocketCache)
      (stack : List Nat) (out : Cells × SocketCache × List Nat),
      propagateNeighbors chk rules ci nbrs cells cache stack = .ok out →
      Shrinks cells out.1 := by
  intro nbrs
  induction nbrs with
  | nil =>
    intro cells cache stack out h
    unfold propagateNeighbors at h
    simp only [Res.ok.injEq] at h
    rw [← h]
    exact shrinks_refl cells
  | cons nb rest ih =>
    intro cells cache stack out h
    obtain ⟨ni, dir⟩ := nb
    unfold propagateNeighbors at h
    cases hg1 : cells.list.get? ci with
    | none =>
      rw [hg1] at h
      simp only [orPanic, Bind.bind, Res.bind] at h
      exact Res.noConfusion h
    | some cell =>
      rw [hg1] at h
      simp only [orPanic, Bind.bind, Res.bind] at h
      cases hg2 : cells.list.get? ni with
      | none =>
        rw [hg2] at h
        simp only [orPanic, Bind.bind, Res.bind] at h
        exact Res.noConfusion h
      | some neighbor =>
        rw [hg2] at h
        simp only [orPanic, Bind.bind, Res.bind] at h
        cases hc : constrain neighbor chk cell.possibilities dir rules cache with
        | err e => rw [hc] at h; exact Res.noConfusion h
        | panicked => rw [hc] at h; exact Res.noConfusion h
        | nofuel => rw [hc] at h; exact Res.noConfusion h
        | ok pr =>
          obtain ⟨neighbor', cache'⟩ := pr
          rw [hc] at h
          simp only at h
          have hsh1 : Shrinks cells
              ⟨cells.size, cells.list.set ni neighbor', cells.entropy_cache⟩ :=
            shrinks_set neighbor' _ hg2 (constrain_ok_subset hc).1
          by_cases hne : (neighbor.entropy != neighbor'.entropy) = true
          · rw [if_pos hne] at h
            cases hse : Cells.set_entropy
                ⟨cells.size, cells.list.set ni neighbor', cells.entropy_cache⟩
                neighbor.entropy ni neighbor'.entropy with
            | none =>
              rw [hse] at h
              exact Res.noConfusion h
            | some cells2 =>
              rw [hse] at h
              obtain ⟨hl2, hs2, _⟩ := set_entropy_shape hse
              exact shrinks_trans (shrinks_trans hsh1 (shrinks_eqlist hl2 hs2))
                (ih _ _ _ _ h)
          · rw [if_neg hne] at h
            exact shrinks_trans hsh1 (ih _ _ _ _ h)

theorem propagateLoop_shrinks (chk : Nat → List Nat → Bool) (rules : Rules) :
    ∀ (fuel : Nat) (cells : Cells) (cache : SocketCache) (stack : List Nat)
      (out : Cells × SocketCache),
      propagateLoop chk rules fuel cells cache stack = .ok out →
      Shrinks cells out.1 := by
  intro fuel
  induction fuel with
  | zero =>
    intro cells cache stack out h
    exact Res.noConfusion h
  | succ fuel ih =>
    intro cells cache stack out h
    cases stack with
    | nil =>
      unfold propagateLoop at h
      simp only [Res.ok.injEq] at h
      rw [← h]
      exact shrinks_refl cells
    | cons ci stack =>
      unfold propagateLoop at h
      cases hg : cells.list.get? ci with
      | none =>
        rw [hg] at h
        simp only [orPanic, Bind.bind, Res.bind] at h
        exact Res.noConfusion h
      | some cell =>
        rw [hg] at h
        simp only [orPanic, Bind.bind, Res.bind] at h
        cases hp : propagateNeighbors chk rules ci
            (cell.neighbors.filter
              (fun p => ((cells.list.get? p.1).map (fun c => !c.collapsed)).getD false))
            cells cache stack with
        | err e => rw [hp] at h; exact Res.noConfusion h
        | panicked => rw [hp] at h; exact Res.noConfusion h
        | nofuel => rw [hp] at h; exact Res.noConfusion h
        | ok tri =>
          obtain ⟨cells1, cache1, stack1⟩ := tri
          rw [hp] at h
          simp only at h
          exact shrinks_trans (propagateNeighbors_shrinks chk rules ci _ _ _ _ _ hp)
            (ih _ _ _ _ h)

theorem propagate_shrinks {chk : Nat → List Nat → Bool} {rules : Rules}
    {cells : Cells} {cache : SocketCache} {ci : Nat} {out : Cells × SocketCache}
    (h : propagate chk rules cells cache ci = .ok out) : Shrinks cells out.1 :=
  propagateLoop_shrinks chk rules _ cells cache [ci] out h

theorem designate_spec {cells : Cells} {rng : Rng} {out : Option Nat × Cells × Rng}
    (h : designate cells rng = .ok out) :
    Shrinks cells out.2.1 ∧
    (out.1 = none → out.2.1 = cells) ∧
    (∀ i, out.1 = some i → ∃ c, cells.list.get? i = some c ∧
      ((c.isCollapsed = true ∧ out.2.1 = cells) ∨
       (c.isCollapsed = false ∧ ∃ v cache', v ∈ c.possibilities ∧
         cells.entropy_cache.clear_entry c.possibilities.length i = some cache' ∧
         out.2.1 = ⟨cells.size, cells.list.set i (c.collapse v), cache'⟩))) := by
  unfold designate at h
  cases hlow : cells.entropy_cache.lowest with
  | none =>
    rw [hlow] at h
    simp only [Res.ok.injEq] at h
    rw [← h]
    exact ⟨shrinks_refl cells, fun _ => rfl, fun i hi => by cases hi⟩
  | some indexes =>
    rw [hlow] at h
    dsimp only at h
    rcases hcf : chooseFrom indexes rng with ⟨pick, rng1⟩
    rw [hcf] at h
    dsimp only at h
    cases pick with
    | none =>
      simp only [Res.ok.injEq] at h
      rw [← h]
      exact ⟨shrinks_refl cells, fun _ => rfl, fun i hi => by cases hi⟩
    | some index =>
      dsimp only at h
      unfold Cells.collapse at h
      cases hg : cells.list.get? index with
      | none =>
        rw [hg] at h
        simp only [Bind.bind, Res.bind] at h
        exact Res.noConfusion h
      | some cell =>
        rw [hg] at h
        dsimp only at h
        by_cases hcol : cell.collapsed = true
        · rw [if_pos hcol] at h
          simp only [Bind.bind, Res.bind, Res.ok.injEq] at h
          rw [← h]
          refine ⟨shrinks_refl cells, ?_, ?_⟩
          · intro hn
            exact absurd hn (by simp)
          · intro i hi
            have hi2 : some index = some i := hi
            injection hi2 with he
            subst he
            exact ⟨cell, hg, Or.inl ⟨hcol, rfl⟩⟩
        · rw [if_neg hcol] at h
          simp only [Bind.bind, Res.bind] at h
          rcases hcv : chooseFrom cell.possibilities rng1 with ⟨choice, rng2⟩
          rw [hcv] at h
          dsimp only at h
          cases choice with
          | none =>
            dsimp only at h
            exact Res.noConfusion h
          | some v =>
            dsimp only at h
            simp only [orPanic] at h
            cases hce : cells.entropy_cache.clear_entry cell.possibilities.length index with
            | none =>
              rw [hce] at h
              exact Res.noConfusion h
            | some cache2 =>
              rw [hce] at h
              simp only [Res.ok.injEq] at h
              rw [← h]
              have hcolf : cell.isCollapsed = false := by
                rw [Bool.not_eq_true] at hcol
                exact hcol
              have hvmem : v ∈ cell.possibilities := chooseFrom_mem hcv
              refine ⟨?_, ?_, ?_⟩
              · refine shrinks_set (cell.collapse v) _ hg ?_
                intro x hx
                have hxv : x = v := by
                  have hx2 : x ∈ [v] := hx
                  simpa using hx2
                rw [hxv]
                exact hvmem
              · intro hn
                exact absurd hn (by simp)
              · intro i hi
                have hi2 : some index = some i := hi
                injection hi2 with he
                subst he
                exact ⟨cell, hg, Or.inr ⟨hcolf, v, cache2, hvmem, hce, rfl⟩⟩

theorem remove_variant_subset (c : Cell) (v : Nat) :
    (c.remove_variant v).possibilities ⊆ c.possibilities := by
  unfold Cell.remove_variant
  by_cases hcol : c.isCollapsed = true
  · rw [if_pos hcol]
    exact fun x hx => hx
  · rw [if_neg hcol]
    exact swapRemove_subset c.possibilities v

theorem limitStrike_shrinks (variant : Nat) :
    ∀ (idxs : List Nat) (cells cells' : Cells),
      limitStrike variant idxs cells = some cells' → Shrinks cells cells' := by
  intro idxs
  induction idxs with
  | nil =>
    intro cells cells' h
    unfold limitStrike at h
    simp only [Option.some_inj] at h
    rw [← h]
    exact shrinks_refl cells
  | cons i rest ih =>
    intro cells cells' h
    unfold limitStrike at h
    cases hg : cells.list.get? i with
    | none =>
      rw [hg] at h
      exact Option.noConfusion h
    | some cell =>
      rw [hg] at h
      dsimp only at h
      by_cases hcol : cell.collapsed = true
      · rw [if_pos hcol] at h
        exact ih _ _ h
      · rw [if_neg hcol] at h
        cases hset : cells.entropy_cache.set cell.entropy i
            (cell.remove_variant variant).entropy with
        | none =>
          rw [hset] at h
          exact Option.noConfusion h
        | some cache2 =>
          rw [hset] at h
          exact shrinks_trans
            (shrinks_set (cell.remove_variant variant) cache2 hg
              (remove_variant_subset cell variant))
            (ih _ _ h)

theorem limitRevise_shrinks {limits : List (Nat × Nat)} {variant : Nat}
    {cells : Cells} {out : List (Nat × Nat) × Cells}
    (h : limitRevise limits variant cells = some out) : Shrinks cells out.2 := by
  unfold limitRevise at h
  cases hl : lookupLimit limits variant with
  | none =>
    rw [hl] at h
    simp only [Option.some_inj] at h
    rw [← h]
    exact shrinks_refl cells
  | some limit =>
    rw [hl] at h
    dsimp only at h
    by_cases hpos : limit - 1 > 0
    · rw [if_pos hpos] at h
      simp only [Option.some_inj] at h
      rw [← h]
      exact shrinks_refl cells
    · rw [if_neg hpos] at h
      cases hs : limitStrike variant (List.range cells.list.length) cells with
      | none =>
        rw [hs] at h
        exact Option.noConfusion h
      | some cells2 =>
        rw [hs] at h
        simp only [Option.map_some', Option.some_inj] at h
        rw [← h]
        exact limitStrike_shrinks variant _ _ _ hs

theorem applyExtIndexes_shrinks (chk : Nat → List Nat → Bool) (rules : Rules)
    (dir : Nat) (extList extSize : List Nat) :
    ∀ (idxs : List Nat) (cells : Cells) (cache : SocketCache)
      (out : Cells × SocketCache),
      applyExtIndexes chk rules dir extList extSize idxs cells cache = .ok out →
      Shrinks cells out.1 := by
  intro idxs
  induction idxs with
  | nil =>
    intro cells cache out h
    unfold applyExtIndexes at h
    simp only [Res.ok.injEq] at h
    rw [← h]
    exact shrinks_refl cells
  | cons index rest ih =>
    intro cells cache out h
    unfold applyExtIndexes at h
    cases hg : cells.list.get? index with
    | none =>
      rw [hg] at h
      simp only [orPanic, Bind.bind, Res.bind] at h
      exact Res.noConfusion h
    | some cell =>
      rw [hg] at h
      simp only [orPanic, Bind.bind, Res.bind] at h
      cases hpa : posAdd cell.position dir with
      | none =>
        rw [hpa] at h
        exact Res.noConfusion h
      | some npos =>
        rw [hpa] at h
        dsimp only at h
        cases hext : extList.get? (indexIn npos extSize) with
        | none =>
          rw [hext] at h
          exact Res.noConfusion h
        | some extVariant =>
          rw [hext] at h
          dsimp only at h
          cases hc : constrain cell chk [extVariant] (oppositeDir dir) rules cache with
          | err e => rw [hc] at h; exact Res.noConfusion h
          | panicked => rw [hc] at h; exact Res.noConfusion h
          | nofuel => rw [hc] at h; exact Res.noConfusion h
          | ok pr =>
            obtain ⟨cell', cache1⟩ := pr
            rw [hc] at h
            dsimp only at h
            have hsh1 : Shrinks cells
                ⟨cells.size, cells.list.set index cell', cells.entropy_cache⟩ :=
              shrinks_set cell' _ hg (constrain_ok_subset hc).1
            by_cases hne : (cell.entropy != cell'.entropy) = true
            · rw [if_pos hne] at h
              cases hse : Cells.set_entropy
                  ⟨cells.size, cells.list.set index cell', cells.entropy_cache⟩
                  cell.entropy index cell'.entropy with
              | none =>
                rw [hse] at h
                simp only [orPanic, Bind.bind, Res.bind] at h
                exact Res.noConfusion h
              | some cells2 =>
                rw [hse] at h
                simp only [orPanic, Bind.bind, Res.bind] at h
                obtain ⟨hl2, hs2, _⟩ := set_entropy_shape hse
                cases hp : propagate chk rules cells2 cache1 index with
                | err e => rw [hp] at h; exact Res.noConfusion h
                | panicked => rw [hp] at h; exact Res.noConfusion h
                | nofuel => rw [hp] at h; exact Res.noConfusion h
                | ok pr2 =>
                  obtain ⟨cells3, cache2⟩ := pr2
                  rw [hp] at h
                  dsimp only at h
                  exact shrinks_trans
                    (shrinks_trans (shrinks_trans hsh1 (shrinks_eqlist hl2 hs2))
                      (propagate_shrinks hp))
                    (ih _ _ _ h)
            · rw [if_neg hne] at h
              cases hp : propagate chk rules
                  ⟨cells.size, cells.list.set index cell', cells.entropy_cache⟩
                  cache1 index with
              | err e => rw [hp] at h; exact Res.noConfusion h
              | panicked => rw [hp] at h; exact Res.noConfusion h
              | nofuel => rw [hp] at h; exact Res.noConfusion h
              | ok pr2 =>
                obtain ⟨cells3, cache2⟩ := pr2
                rw [hp] at h
                dsimp only at h
                exact shrinks_trans (shrinks_trans hsh1 (propagate_shrinks hp))
                  (ih _ _ _ h)

theorem applyExternal_shrinks (chk : Nat → List Nat → Bool) (rules : Rules)
    (dim : Nat) :
    ∀ (ext : List (Nat × List Nat)) (cells : Cells) (cache : SocketCache)
      (out : Cells × SocketCache),
      applyExternal chk rules dim ext cells cache = .ok out →
      Shrinks cells out.1 := by
  intro ext
  induction ext with
  | nil =>
    intro cells cache out h
    unfold applyExternal at h
    simp only [Res.ok.injEq] at h
    rw [← h]
    exact shrinks_refl cells
  | cons pr rest ih =>
    intro cells cache out h
    obtain ⟨dir, extList⟩ := pr
    unfold applyExternal at h
    cases hidx : cells.uncollapsed_indexes_along_dir dir dim with
    | none =>
      rw [hidx] at h
      simp only [orPanic, Bind.bind, Res.bind] at h
      exact Res.noConfusion h
    | some indexes =>
      rw [hidx] at h
      simp only [orPanic, Bind.bind, Res.bind] at h
      cases ha : applyExtIndexes chk rules dir extList cells.size indexes cells cache with
      | err e => rw [ha] at h; exact Res.noConfusion h
      | panicked => rw [ha] at h; exact Res.noConfusion h
      | nofuel => rw [ha] at h; exact Res.noConfusion h
      | ok pr2 =>
        obtain ⟨cells1, cache1⟩ := pr2
        rw [ha] at h
        dsimp only at h
        exact shrinks_trans (applyExtIndexes_shrinks chk rules dir extList
          cells.size indexes cells cache _ ha) (ih _ _ _ h)

theorem applyPredetermined_shrinks (chk : Nat → List Nat → Bool) (rules : Rules) :
    ∀ (props : List (Nat × Nat)) (limits : List (Nat × Nat)) (cells : Cells)
      (cache : SocketCache) (out : List (Nat × Nat) × Cells × SocketCache),
      applyPredetermined chk rules props limits cells cache = .ok out →
      Shrinks cells out.2.1 := by
  intro props
  induction props with
  | nil =>
    intro limits cells cache out h
    unfold applyPredetermined at h
    simp only [Res.ok.injEq] at h
    rw [← h]
    exact shrinks_refl cells
  | cons pr rest ih =>
    intro limits cells cache out h
    obtain ⟨i, variant⟩ := pr
    unfold applyPredetermined at h
    cases hr : limitRevise limits variant cells with
    | none =>
      rw [hr] at h
      simp only [orPanic, Bind.bind, Res.bind] at h
      exact Res.noConfusion h
    | some pr2 =>
      obtain ⟨limits1, cells1⟩ := pr2
      rw [hr] at h
      simp only [orPanic, Bind.bind, Res.bind] at h
      cases hp : propagate chk rules cells1 cache i with
      | err e => rw [hp] at h; exact Res.noConfusion h
      | panicked => rw [hp] at h; exact Res.noConfusion h
      | nofuel => rw [hp] at h; exact Res.noConfusion h
      | ok pr3 =>
        obtain ⟨cells2, cache1⟩ := pr3
        rw [hp] at h
        dsimp only at h
        exact shrinks_trans (shrinks_trans (limitRevise_shrinks hr)
          (propagate_shrinks hp)) (ih _ _ _ _ h)

/-- Claim C3: across any sequence of engine operations — external-border
application, seeded-cell propagation (adjuster revision plus propagation per
seed), and collapse steps with their adjuster revisions — every cell's
candidate set after an operation is a subset of its set before, and the
variant a collapse chooses is a member of the cell's candidate set at that
moment (the collapsed cell holds exactly that variant immediately after the
choice). -/
theorem c3_monotone_shrinkage (chk : Nat → List Nat → Bool) (rules : Rules) :
    (∀ dim ext cells cache out,
      applyExternal chk rules dim ext cells cache = .ok out →
      Shrinks cells out.1) ∧
    (∀ props limits cells cache out,
      applyPredetermined chk rules props limits cells cache = .ok out →
      Shrinks cells out.2.1) ∧
    (∀ st r st', step chk st = .ok (r, st') →
      Shrinks st.cells st'.cells ∧
      ∀ i, r = some i → ∃ c, st.cells.list.get? i = some c ∧
        (c.isCollapsed = false → ∃ v, v ∈ c.possibilities ∧
          ∃ c', st'.cells.list.get? i = some c' ∧ c'.possibilities ⊆ [v])) := by
  refine ⟨fun dim ext cells cache out h =>
      applyExternal_shrinks chk rules dim ext cells cache out h,
    fun props limits cells cache out h =>
      applyPredetermined_shrinks chk rules props limits cells cache out h,
    ?_⟩
  intro st r st' h
  unfold step at h
  cases hd : designate st.cells st.rng with
  | err e => rw [hd] at h; exact Res.noConfusion h
  | panicked => rw [hd] at h; exact Res.noConfusion h
  | nofuel => rw [hd] at h; exact Res.noConfusion h
  | ok tri =>
    obtain ⟨picked, cells1, rng1⟩ := tri
    rw [hd] at h
    dsimp only at h
    obtain ⟨hsh1, hnone, hsome⟩ := designate_spec hd
    dsimp only at hsh1 hnone hsome
    cases picked with
    | none =>
      have hinj := Res.ok.inj h
      have hr : (none : Option Nat) = r := congrArg Prod.fst hinj
      have hst : ({ st with cells := cells1, rng := rng1 } : St) = st' :=
        congrArg Prod.snd hinj
      constructor
      · rw [← hst]
        have hc1 : cells1 = st.cells := hnone rfl
        show Shrinks st.cells cells1
        rw [hc1]
        exact shrinks_refl st.cells
      · intro i hi
        rw [← hr] at hi
        exact Option.noConfusion hi
    | some index =>
      simp only [orPanic, Bind.bind, Res.bind] at h
      cases hg : cells1.list.get? index with
      | none =>
        rw [hg] at h
        exact Res.noConfusion h
      | some cell1 =>
        rw [hg] at h
        dsimp only at h
        cases hsel : cell1.selected_variant with
        | none =>
          rw [hsel] at h
          exact Res.noConfusion h
        | some possibility =>
          rw [hsel] at h
          dsimp only at h
          cases hrev : limitRevise st.limits possibility cells1 with
          | none =>
            rw [hrev] at h
            exact Res.noConfusion h
          | some pr =>
            obtain ⟨limits1, cells2⟩ := pr
            rw [hrev] at h
            dsimp only at h
            cases hp : propagate chk st.rules cells2 st.cache index with
            | err e => rw [hp] at h; exact Res.noConfusion h
            | panicked => rw [hp] at h; exact Res.noConfusion h
            | nofuel => rw [hp] at h; exact Res.noConfusion h
            | ok pr2 =>
              obtain ⟨cells3, cache1⟩ := pr2
              rw [hp] at h
              dsimp only at h
              have hinj := Res.ok.inj h
              have hr : some index = r := congrArg Prod.fst hinj
              have hst : (⟨cells3, st.rules, cache1, rng1, limits1⟩ : St) = st' :=
                congrArg Prod.snd hinj
              have hsh2 : Shrinks cells1 cells2 := limitRevise_shrinks hrev
              have hsh3 : Shrinks cells2 cells3 := propagate_shrinks hp
              have hshall : Shrinks st.cells st'.cells := by
                rw [← hst]
                exact shrinks_trans hsh1 (shrinks_trans hsh2 hsh3)
              refine ⟨hshall, ?_⟩
              intro i hi
              have hii : some index = some i := hr.trans hi
              injection hii with he
              subst he
              obtain ⟨c, hc, hcases⟩ := hsome index rfl
              refine ⟨c, hc, ?_⟩
              intro hcol
              rcases hcases with ⟨hcol2, _⟩ | ⟨_, v, cache2, hvmem, hce, hcells1⟩
              · rw [hcol] at hcol2
                cases hcol2
              · refine ⟨v, hvmem, ?_⟩
                have hlt : index < st.cells.list.length :=
                  (List.get?_eq_some.1 hc).choose
                have hg1 : cells1.list.get? index = some (c.collapse v) := by
                  rw [hcells1]
                  show (st.cells.list.set index (c.collapse v)).get? index = _
                  exact List.get?_set_eq_of_lt _ hlt
                have hsh23 : Shrinks cells1 st'.cells := by
                  rw [← hst]
                  exact shrinks_trans hsh2 hsh3
                obtain ⟨_, hl23, hp23⟩ := hsh23
                have hlt2 : index < st'.cells.list.length := by
                  rw [hl23, hcells1]
                  simpa using hlt
                have hg2 : st'.cells.list.get? index
                    = some (st'.cells.list.get ⟨index, hlt2⟩) := List.get?_eq_get hlt2
                exact ⟨st'.cells.list.get ⟨index, hlt2⟩, hg2,
                  hp23 index (c.collapse v) _ hg1 hg2⟩

def inpW1 : BuildInput := ⟨1, 2, [1], 5, [], rulesW, [], []⟩

def stW1 : St :=
  ⟨⟨[1], [⟨[0, 1], 2, false, [], [0]⟩], ⟨[[], [0]]⟩⟩, rulesW, ⟨[]⟩, ⟨5⟩, []⟩

def stW2 : St :=
  ⟨⟨[1], [⟨[1], 0, true, [], [0]⟩], ⟨[[], []]⟩⟩, rulesW, ⟨[]⟩, ⟨554244747⟩, []⟩

/-- Witness for C3: one concrete collapse step on a one-cell grid; the chosen
variant is a member of the cell's candidate set. -/
theorem c3_monotone_shrinkage_witness :
    ∃ c, stW1.cells.list.get? 0 = some c ∧
      (c.isCollapsed = false → ∃ v, v ∈ c.possibilities ∧
        ∃ c', stW2.cells.list.get? 0 = some c' ∧ c'.possibilities ⊆ [v]) :=
  (((c3_monotone_shrinkage unaryCheck rulesW).2.2 stW1 (some 0) stW2
    (by decide)).2) 0 rfl

/-! ## Lemmas: the entropy-bucket invariant -/

/-- Well-formedness of one cell against the bucket count `K`: possibilities
are duplicate-free; a collapsed cell has entropy `0` and exactly one variant;
an uncollapsed cell has its entropy equal to its (non-zero, at most `K`)
possibility count. -/
def CellWf (K : Nat) (c : Cell) : Prop :=
  c.possibilities.Nodup ∧
  (c.isCollapsed = true → c.entropy = 0 ∧ c.possibilities.length = 1) ∧
  (c.isCollapsed = false → c.entropy = c.possibilities.length ∧
    1 ≤ c.possibilities.length ∧ c.possibilities.length ≤ K)

/-- The engine invariant: every cell is well formed, every bucket is
duplicate-free, and bucket `e` holds exactly the uncollapsed cell indices of
entropy `e`. -/
def Inv (cells : Cells) : Prop :=
  (∀ i c, cells.list.get? i = some c →
    CellWf cells.entropy_cache.buckets.length c) ∧
  (∀ e b, cells.entropy_cache.getBucket e = some b → b.Nodup) ∧
  (∀ e b, cells.entropy_cache.getBucket e = some b →
    ∀ i, i ∈ b ↔ ∃ c, cells.list.get? i = some c ∧
      c.isCollapsed = false ∧ c.entropy = e)

theorem putBucket_bounds {c : EntropyCache} {e : Nat} {b : List Nat}
    {c' : EntropyCache} (h : c.putBucket e b = some c') :
    1 ≤ e ∧ e ≤ c.buckets.length := by
  unfold EntropyCache.putBucket at h
  by_cases hc : e = 0 ∨ c.buckets.length < e
  · rw [if_pos hc] at h
    exact Option.noConfusion h
  · push_neg at hc
    omega

theorem set_bounds {c : EntropyCache} {sE i nE : Nat} {c' : EntropyCache}
    (h : EntropyCache.set c sE i nE = some c') :
    1 ≤ sE ∧ sE ≤ c.buckets.length ∧ 1 ≤ nE ∧ nE ≤ c.buckets.length := by
  unfold EntropyCache.set at h
  cases hb1 : c.getBucket sE with
  | none =>
    rw [hb1] at h
    exact Option.noConfusion h
  | some b1 =>
    rw [hb1] at h
    simp only [Option.bind_eq_bind, Option.some_bind] at h
    cases hp1 : c.putBucket sE (swapRemove b1 i) with
    | none =>
      rw [hp1] at h
      exact Option.noConfusion h
    | some c1 =>
      rw [hp1] at h
      simp only [Option.some_bind] at h
      obtain ⟨h1, h2⟩ := getBucket_bounds c hb1
      cases hb2 : c1.getBucket nE with
      | none =>
        rw [hb2] at h
        exact Option.noConfusion h
      | some b2 =>
        rw [hb2] at h
        simp only [Option.some_bind] at h
        obtain ⟨h3, h4⟩ := getBucket_bounds c1 hb2
        have hlen := putBucket_length c hp1
        exact ⟨h1, h2, h3, by omega⟩

theorem clear_entry_bounds {c : EntropyCache} {e i : Nat} {c' : EntropyCache}
    (h : EntropyCache.clear_entry c e i = some c') :
    1 ≤ e ∧ e ≤ c.buckets.length := by
  unfold EntropyCache.clear_entry at h
  cases hb : c.getBucket e with
  | none =>
    rw [hb] at h
    exact Option.noConfusion h
  | some b =>
    exact getBucket_bounds c hb

theorem get?_set_self {α : Type} : ∀ (l : List α) (i : Nat) (a : α),
    l.get? i = some a → ∀ j, (l.set i a).get? j = l.get? j := by
  intro l i a h j
  by_cases hij : i = j
  · subst hij
    rw [List.get?_set_eq_of_lt a (List.get?_eq_some.1 h).choose, h]
  · exact List.get?_set_ne a _ hij

theorem inv_congr {a b : Cells}
    (hl : ∀ j, b.list.get? j = a.list.get? j)
    (hc : b.entropy_cache = a.entropy_cache) (hInv : Inv a) : Inv b := by
  obtain ⟨hwf, hnd, hmem⟩ := hInv
  refine ⟨?_, ?_, ?_⟩
  · intro i c h
    rw [hl i] at h
    rw [hc]
    exact hwf i c h
  · intro e bkt h
    rw [hc] at h
    exact hnd e bkt h
  · intro e bkt h i
    rw [hc] at h
    rw [hl i]
    exact hmem e bkt h i

/-- The central bucket-moving transition: replace cell `i` (uncollapsed
afterwards) and run `EntropyCache::set` from its old entropy to its new one;
the invariant is preserved. -/
theorem inv_update_cell {cells : Cells} {i : Nat} {c c' : Cell}
    {cache' : EntropyCache} (hInv : Inv cells)
    (hg : cells.list.get? i = some c)
    (hnodup' : c'.possibilities.Nodup)
    (hcol' : c'.isCollapsed = false)
    (hlen' : c'.entropy = c'.possibilities.length)
    (hset : cells.entropy_cache.set c.entropy i c'.entropy = some cache') :
    Inv ⟨cells.size, cells.list.set i c', cache'⟩ := by
  obtain ⟨hwf, hnd, hmem⟩ := hInv
  obtain ⟨hs1, hs2, hn1, hn2⟩ := set_bounds hset
  have hcolc : c.isCollapsed = false := by
    by_contra hcol
    rw [Bool.not_eq_false] at hcol
    obtain ⟨he0, _⟩ := (hwf i c hg).2.1 hcol
    omega
  have hlt : i < cells.list.length := (List.get?_eq_some.1 hg).choose
  obtain ⟨bs, cSpec, hbs, hsetEq, hlenEq, hother, hsplit⟩ :=
    entropy_set_spec cells.entropy_cache c.entropy i c'.entropy hs1 hs2 hn1 hn2
  have hcc : cache' = cSpec := by
    rw [hsetEq] at hset
    exact (Option.some_inj.1 hset).symm
  subst hcc
  have hbsnd : bs.Nodup := hnd _ _ hbs
  have hbsmem := hmem _ _ hbs
  have hget' : ∀ j, (cells.list.set i c').get? j
      = if i = j then some c' else cells.list.get? j := by
    intro j
    by_cases hij : i = j
    · subst hij
      rw [if_pos rfl]
      exact List.get?_set_eq_of_lt c' hlt
    · rw [if_neg hij]
      exact List.get?_set_ne c' _ hij
  refine ⟨?_, ?_, ?_⟩
  · intro j cj h
    show CellWf cache'.buckets.length cj
    rw [hget' j] at h
    by_cases hij : i = j
    · rw [if_pos hij] at h
      cases h
      refine ⟨hnodup', fun hcolT => ?_, fun _ => ⟨hlen', by omega, by omega⟩⟩
      rw [hcol'] at hcolT
      cases hcolT
    · rw [if_neg hij] at h
      have := hwf j cj h
      rw [hlenEq]
      exact this
  · intro e bkt h
    by_cases hes : e = c.entropy
    · subst hes
      by_cases hne : c.entropy = c'.entropy
      · rw [if_pos hne] at hsplit
        rw [← hne] at hsplit
        rw [hsplit] at h
        cases h
        exact nodup_ordInsert _ (nodup_swapRemove bs hbsnd i) i
      · rw [if_neg hne] at hsplit
        obtain ⟨bn, hbn, hgs, hgn⟩ := hsplit
        rw [hgs] at h
        cases h
        exact nodup_swapRemove bs hbsnd i
    · by_cases hen : e = c'.entropy
      · subst hen
        by_cases hne : c.entropy = c'.entropy
        · exact absurd hne.symm hes
        · rw [if_neg hne] at hsplit
          obtain ⟨bn, hbn, hgs, hgn⟩ := hsplit
          rw [hgn] at h
          cases h
          exact nodup_ordInsert _ (hnd _ _ hbn) i
      · rw [hother e hes hen] at h
        exact hnd e bkt h
  · intro e bkt h j
    rw [hget' j]
    have hrhs_i : (∃ cj, (if i = j then some c' else cells.list.get? j) = some cj ∧
        cj.isCollapsed = false ∧ cj.entropy = e) ↔
        (if i = j then c'.entropy = e
         else ∃ cj, cells.list.get? j = some cj ∧
           cj.isCollapsed = false ∧ cj.entropy = e) := by
      by_cases hij : i = j
      · rw [if_pos hij, if_pos hij]
        constructor
        · rintro ⟨cj, hcj, _, hce⟩
          cases hcj
          exact hce
        · intro hce
          exact ⟨c', rfl, hcol', hce⟩
      · rw [if_neg hij, if_neg hij]
    rw [hrhs_i]
    by_cases hes : e = c.entropy
    · subst hes
      by_cases hne : c.entropy = c'.entropy
      · rw [if_pos hne] at hsplit
        rw [← hne] at hsplit
        rw [hsplit] at h
        cases h
        rw [mem_ordInsert, mem_swapRemove bs hbsnd]
        by_cases hij : i = j
        · subst hij
          rw [if_pos rfl]
          constructor
          · intro _
            omega
          · intro _
            exact Or.inr rfl
        · rw [if_neg hij]
          rw [hbsmem j]
          constructor
          · rintro (⟨hmemj, _⟩ | hji)
            · exact hmemj
            · exact absurd hji.symm hij
          · intro hmemj
            exact Or.inl ⟨hmemj, fun hji => hij hji.symm⟩
      · rw [if_neg hne] at hsplit
        obtain ⟨bn, hbn, hgs, hgn⟩ := hsplit
        rw [hgs] at h
        cases h
        rw [mem_swapRemove bs hbsnd]
        by_cases hij : i = j
        · subst hij
          rw [if_pos rfl]
          constructor
          · rintro ⟨_, hcon⟩
            exact absurd rfl hcon
          · intro hce
            exact absurd hce.symm hne
        · rw [if_neg hij, hbsmem j]
          constructor
          · rintro ⟨hmemj, _⟩
            exact hmemj
          · intro hmemj
            exact ⟨hmemj, fun hji => hij hji.symm⟩
    · by_cases hen : e = c'.entropy
      · subst hen
        by_cases hne : c.entropy = c'.entropy
        · exact absurd hne.symm hes
        · rw [if_neg hne] at hsplit
          obtain ⟨bn, hbn, hgs, hgn⟩ := hsplit
          rw [hgn] at h
          cases h
          rw [mem_ordInsert]
          by_cases hij : i = j
          · subst hij
            rw [if_pos rfl]
            constructor
            · intro _
              rfl
            · intro _
              exact Or.inr rfl
          · rw [if_neg hij, hmem _ _ hbn j]
            constructor
            · rintro (hmemj | hji)
              · exact hmemj
              · exact absurd hji.symm hij
            · intro hmemj
              exact Or.inl hmemj
      · rw [hother e hes hen] at h
        have := hmem e bkt h j
        rw [this]
        by_cases hij : i = j
        · subst hij
          rw [if_pos rfl]
          constructor
          · rintro ⟨cj, hcj, _, hce⟩
            rw [hg] at hcj
            cases hcj
            obtain ⟨hee, _, _⟩ := (hwf i c hg).2.2 hcolc
            exact absurd hce.symm hes
          · intro hce
            exact absurd hce.symm hen
        · rw [if_neg hij]

/-- Collapsing cell `i` and clearing its entry from bucket
`|possibilities|` preserves the invariant: the collapsed cell leaves every
bucket. -/
theorem inv_collapse_cell {cells : Cells} {i : Nat} {c : Cell} {v : Nat}
    {cache' : EntropyCache} (hInv : Inv cells)
    (hg : cells.list.get? i = some c) (hcol : c.isCollapsed = false)
    (hce : cells.entropy_cache.clear_entry c.possibilities.length i
      = some cache') :
    Inv ⟨cells.size, cells.list.set i (c.collapse v), cache'⟩ := by
  obtain ⟨hwf, hnd, hmem⟩ := hInv
  obtain ⟨hent, hp1, hpK⟩ := (hwf i c hg).2.2 hcol
  obtain ⟨h1, h2⟩ := clear_entry_bounds hce
  have hlt : i < cells.list.length := (List.get?_eq_some.1 hg).choose
  obtain ⟨bs, cSpec, hbs, hceEq, hlenEq, hgetE, hother⟩ :=
    clear_entry_spec cells.entropy_cache c.possibilities.length i h1 h2
  have hcc : cache' = cSpec := by
    rw [hceEq] at hce
    exact (Option.some_inj.1 hce).symm
  subst hcc
  have hbsnd : bs.Nodup := hnd _ _ hbs
  have hbsmem := hmem _ _ hbs
  have hget' : ∀ j, (cells.list.set i (c.collapse v)).get? j
      = if i = j then some (c.collapse v) else cells.list.get? j := by
    intro j
    by_cases hij : i = j
    · subst hij
      rw [if_pos rfl]
      exact List.get?_set_eq_of_lt _ hlt
    · rw [if_neg hij]
      exact List.get?_set_ne _ _ hij
  refine ⟨?_, ?_, ?_⟩
  · intro j cj h
    show CellWf cache'.buckets.length cj
    rw [hget' j] at h
    by_cases hij : i = j
    · rw [if_pos hij] at h
      cases h
      refine ⟨List.nodup_singleton v, fun _ => ⟨rfl, rfl⟩, fun hcolF => ?_⟩
      cases hcolF
    · rw [if_neg hij] at h
      have := hwf j cj h
      rw [hlenEq]
      exact this
  · intro e bkt h
    by_cases hes : e = c.possibilities.length
    · subst hes
      rw [hgetE] at h
      cases h
      exact nodup_swapRemove bs hbsnd i
    · rw [hother e hes] at h
      exact hnd e bkt h
  · intro e bkt h j
    rw [hget' j]
    by_cases hij : i = j
    · rw [if_pos hij]
      constructor
      · intro hjb
        exfalso
        by_cases hes : e = c.possibilities.length
        · subst hes
          rw [hgetE] at h
          cases h
          obtain ⟨_, hji⟩ := (mem_swapRemove bs hbsnd i j).1 hjb
          exact hji hij.symm
        · rw [hother e hes] at h
          obtain ⟨cj, hcj, _, hce'⟩ := (hmem e bkt h j).1 hjb
          rw [← hij, hg] at hcj
          cases hcj
          exact hes (by omega)
      · rintro ⟨cj, hcj, hcolj, _⟩
        cases hcj
        cases hcolj
    · rw [if_neg hij]
      by_cases hes : e = c.possibilities.length
      · subst hes
        rw [hgetE] at h
        cases h
        rw [mem_swapRemove bs hbsnd, hbsmem j]
        constructor
        · rintro ⟨hjmem, _⟩
          exact hjmem
        · intro hjmem
          exact ⟨hjmem, fun hji => hij hji.symm⟩
      · rw [hother e hes] at h
        exact hmem e bkt h j

theorem constrain_ok_nonempty {cell : Cell} {chk : Nat → List Nat → Bool}
    {P : List Nat} {d : Nat} {rules : Rules} {cache : SocketCache} {cell' : Cell}
    {cache' : SocketCache}
    (h : constrain cell chk P d rules cache = .ok (cell', cache')) :
    cell'.possibilities ≠ [] := by
  unfold constrain at h
  cases hf : socketCacheFetch cache rules P d with
  | none =>
    rw [hf] at h
    exact Res.noConfusion h
  | some pr =>
    obtain ⟨sockets, cache0⟩ := pr
    rw [hf] at h
    simp only at h
    by_cases hempty : (cell.possibilities.filter
        (keepCheck chk rules (oppositeDir d) sockets)).isEmpty = true
    · rw [if_pos hempty] at h
      cases hpa : posAdd cell.position (oppositeDir d) with
      | some npos =>
        rw [hpa] at h
        exact Res.noConfusion h
      | none =>
        rw [hpa] at h
        exact Res.noConfusion h
    · rw [if_neg hempty] at h
      simp only [Res.ok.injEq, Prod.mk.injEq] at h
      rw [← h.1]
      intro hnil
      have hnil' : (cell.possibilities.filter
          (keepCheck chk rules (oppositeDir d) sockets)) = [] := hnil
      exact hempty (by rw [hnil']; rfl)

/-- `RandomArbiter::designate` preserves the invariant. -/
theorem designate_inv {cells : Cells} {rng : Rng} {out : Option Nat × Cells × Rng}
    (hInv : Inv cells) (h : designate cells rng = .ok out) : Inv out.2.1 := by
  obtain ⟨_, hnone, hsome⟩ := designate_spec h
  cases ho : out.1 with
  | none =>
    rw [hnone ho]
    exact hInv
  | some i =>
    obtain ⟨c, hg, hcase⟩ := hsome i ho
    rcases hcase with ⟨_, heq⟩ | ⟨hcol, v, cache', _, hce, heq⟩
    · rw [heq]
      exact hInv
    · rw [heq]
      exact inv_collapse_cell hInv hg hcol hce

theorem propagateNeighbors_inv (chk : Nat → List Nat → Bool) (rules : Rules)
    (ci : Nat) :
    ∀ (nbrs : List (Nat × Nat)) (cells : Cells) (cache : SocketCache)
      (stack : List Nat) (out : Cells × SocketCache × List Nat),
      Inv cells →
      propagateNeighbors chk rules ci nbrs cells cache stack = .ok out →
      Inv out.1 := by
  intro nbrs
  induction nbrs with
  | nil =>
    intro cells cache stack out hInv h
    unfold propagateNeighbors at h
    simp only [Res.ok.injEq] at h
    rw [← h]
    exact hInv
  | cons nb rest ih =>
    intro cells cache stack out hInv h
    obtain ⟨ni, dir⟩ := nb
    unfold propagateNeighbors at h
    cases hg1 : cells.list.get? ci with
    | none =>
      rw [hg1] at h
      simp only [orPanic, Bind.bind, Res.bind] at h
      exact Res.noConfusion h
    | some cell =>
      rw [hg1] at h
      simp only [orPanic, Bind.bind, Res.bind] at h
      cases hg2 : cells.list.get? ni with
      | none =>
        rw [hg2] at h
        simp only [orPanic, Bind.bind, Res.bind] at h
        exact Res.noConfusion h
      | some neighbor =>
        rw [hg2] at h
        simp only [orPanic, Bind.bind, Res.bind] at h
        cases hc : constrain neighbor chk cell.possibilities dir rules cache with
        | err e => rw [hc] at h; exact Res.noConfusion h
        | panicked => rw [hc] at h; exact Res.noConfusion h
        | nofuel => rw [hc] at h; exact Res.noConfusion h
        | ok pr =>
          obtain ⟨neighbor', cache'⟩ := pr
          rw [hc] at h
          simp only at h
          obtain ⟨sockets, hshape⟩ := constrain_ok_shape hc
          obtain ⟨hnodN, hcolT, hcolF⟩ := hInv.1 ni neighbor hg2
          by_cases hne : (neighbor.entropy != neighbor'.entropy) = true
          · rw [if_pos hne] at h
            cases hse : Cells.set_entropy
                ⟨cells.size, cells.list.set ni neighbor', cells.entropy_cache⟩
                neighbor.entropy ni neighbor'.entropy with
            | none =>
              rw [hse] at h
              exact Res.noConfusion h
            | some cells2 =>
              rw [hse] at h
              obtain ⟨hl2, hs2, hsec⟩ := set_entropy_shape hse
              have hsec' : cells.entropy_cache.set neighbor.entropy ni
                  neighbor'.entropy = some cells2.entropy_cache := hsec
              have hcolN : neighbor.isCollapsed = false := by
                by_contra hcol
                rw [Bool.not_eq_false] at hcol
                obtain ⟨he0, _⟩ := hcolT hcol
                obtain ⟨hb1, _, _, _⟩ := set_bounds hsec'
                omega
              have hcol' : neighbor'.isCollapsed = false := by
                rw [(constrain_ok_subset hc).2.1, hcolN]
              have hnodup' : neighbor'.possibilities.Nodup := by
                rw [hshape]
                exact hnodN.filter _
              have hlen' : neighbor'.entropy = neighbor'.possibilities.length := by
                rw [hshape]
              have hInv2 : Inv cells2 :=
                @inv_congr ⟨cells.size, cells.list.set ni neighbor',
                    cells2.entropy_cache⟩ cells2 (fun j => by rw [hl2]) rfl
                  (inv_update_cell hInv hg2 hnodup' hcol' hlen' hsec')
              exact ih _ _ _ _ hInv2 h
          · rw [if_neg hne] at h
            simp only [bne_iff_ne, ne_eq, not_not] at hne
            by_cases hcol : neighbor.isCollapsed = true
            · exfalso
              obtain ⟨he0, _⟩ := hcolT hcol
              have hlen1 : 1 ≤ neighbor'.possibilities.length :=
                List.length_pos.2 (constrain_ok_nonempty hc)
              have hent' : neighbor'.entropy = neighbor'.possibilities.length := by
                rw [hshape]
              omega
            · rw [Bool.not_eq_true] at hcol
              obtain ⟨hentN, _, _⟩ := hcolF hcol
              have hent' : neighbor'.entropy
                  = (neighbor.possibilities.filter
                      (keepCheck chk rules (oppositeDir dir) sockets)).length := by
                rw [hshape]
              have hlenEq : (neighbor.possibilities.filter
                  (keepCheck chk rules (oppositeDir dir) sockets)).length
                  = neighbor.possibilities.length := by
                omega
              have hfn : neighbor.possibilities.filter
                  (keepCheck chk rules (oppositeDir dir) sockets)
                  = neighbor.possibilities :=
                List.Sublist.eq_of_length (List.filter_sublist _) hlenEq
              have hcellEq : neighbor' = neighbor := by
                rw [hshape, hfn, ← hentN]
              have hInv1 : Inv ⟨cells.size, cells.list.set ni neighbor',
                  cells.entropy_cache⟩ :=
                @inv_congr cells ⟨cells.size, cells.list.set ni neighbor',
                    cells.entropy_cache⟩ (fun j => by
                  rw [hcellEq]
                  exact get?_set_self cells.list ni neighbor hg2 j) rfl hInv
              exact ih _ _ _ _ hInv1 h

theorem propagateLoop_inv (chk : Nat → List Nat → Bool) (rules : Rules) :
    ∀ (fuel : Nat) (cells : Cells) (cache : SocketCache) (stack : List Nat)
      (out : Cells × SocketCache),
      Inv cells →
      propagateLoop chk rules fuel cells cache stack = .ok out →
      Inv out.1 := by
  intro fuel
  induction fuel with
  | zero =>
    intro cells cache stack out _ h
    exact Res.noConfusion h
  | succ fuel ih =>
    intro cells cache stack out hInv h
    cases stack with
    | nil =>
      unfold propagateLoop at h
      simp only [Res.ok.injEq] at h
      rw [← h]
      exact hInv
    | cons ci stack =>
      unfold propagateLoop at h
      cases hg : cells.list.get? ci with
      | none =>
        rw [hg] at h
        simp only [orPanic, Bind.bind, Res.bind] at h
        exact Res.noConfusion h
      | some cell =>
        rw [hg] at h
        simp only [orPanic, Bind.bind, Res.bind] at h
        cases hp : propagateNeighbors chk rules ci
            (cell.neighbors.filter (fun p =>
              ((cells.list.get? p.1).map (fun c => !c.collapsed)).getD false))
            cells cache stack with
        | err e => rw [hp] at h; exact Res.noConfusion h
        | panicked => rw [hp] at h; exact Res.noConfusion h
        | nofuel => rw [hp] at h; exact Res.noConfusion h
        | ok pr =>
          obtain ⟨cells1, cache1, stack1⟩ := pr
          rw [hp] at h
          have hInv1 : Inv cells1 :=
            propagateNeighbors_inv chk rules ci _ cells cache stack _ hInv hp
          exact ih _ _ _ _ hInv1 h

theorem propagate_inv {chk : Nat → List Nat → Bool} {rules : Rules}
    {cells : Cells} {cache : SocketCache} {ci : Nat} {out : Cells × SocketCache}
    (hInv : Inv cells) (h : propagate chk rules cells cache ci = .ok out) :
    Inv out.1 :=
  propagateLoop_inv chk rules _ cells cache [ci] out hInv h

theorem limitStrike_inv (variant : Nat) :
    ∀ (idxs : List Nat) (cells cells' : Cells),
      Inv cells → limitStrike variant idxs cells = some cells' → Inv cells' := by
  intro idxs
  induction idxs with
  | nil =>
    intro cells cells' hInv h
    unfold limitStrike at h
    simp only [Option.some_inj] at h
    rw [← h]
    exact hInv
  | cons i rest ih =>
    intro cells cells' hInv h
    unfold limitStrike at h
    cases hg : cells.list.get? i with
    | none =>
      rw [hg] at h
      exact Option.noConfusion h
    | some cell =>
      rw [hg] at h
      dsimp only at h
      by_cases hcol : cell.collapsed = true
      · rw [if_pos hcol] at h
        exact ih _ _ hInv h
      · rw [if_neg hcol] at h
        rw [Bool.not_eq_true] at hcol
        have hcolF : cell.isCollapsed = false := hcol
        have hrv : cell.remove_variant variant
            = ⟨swapRemove cell.possibilities variant,
              (swapRemove cell.possibilities variant).length,
              cell.isCollapsed, cell.neighbors, cell.position⟩ := by
          unfold Cell.remove_variant
          rw [hcolF]
          rfl
        cases hset : cells.entropy_cache.set cell.entropy i
            (cell.remove_variant variant).entropy with
        | none =>
          rw [hset] at h
          exact Option.noConfusion h
        | some cache2 =>
          rw [hset] at h
          have hnodup' : (cell.remove_variant variant).possibilities.Nodup := by
            rw [hrv]
            exact nodup_swapRemove cell.possibilities (hInv.1 i cell hg).1 variant
          have hcol' : (cell.remove_variant variant).isCollapsed = false := by
            rw [hrv]
            exact hcolF
          have hlen' : (cell.remove_variant variant).entropy
              = (cell.remove_variant variant).possibilities.length := by
            rw [hrv]
          exact ih _ _ (inv_update_cell hInv hg hnodup' hcol' hlen' hset) h

theorem limitRevise_inv {limits : List (Nat × Nat)} {variant : Nat}
    {cells : Cells} {out : List (Nat × Nat) × Cells}
    (hInv : Inv cells) (h : limitRevise limits variant cells = some out) :
    Inv out.2 := by
  unfold limitRevise at h
  cases hl : lookupLimit limits variant with
  | none =>
    rw [hl] at h
    simp only [Option.some_inj] at h
    rw [← h]
    exact hInv
  | some limit =>
    rw [hl] at h
    dsimp only at h
    by_cases hpos : limit - 1 > 0
    · rw [if_pos hpos] at h
      simp only [Option.some_inj] at h
      rw [← h]
      exact hInv
    · rw [if_neg hpos] at h
      cases hs : limitStrike variant (List.range cells.list.length) cells with
      | none =>
        rw [hs] at h
        exact Option.noConfusion h
      | some cells2 =>
        rw [hs] at h
        simp only [Option.map_some', Option.some_inj] at h
        rw [← h]
        exact limitStrike_inv variant _ _ _ hInv hs

theorem applyExtIndexes_inv (chk : Nat → List Nat → Bool) (rules : Rules)
    (dir : Nat) (extList extSize : List Nat) :
    ∀ (idxs : List Nat) (cells : Cells) (cache : SocketCache)
      (out : Cells × SocketCache),
      Inv cells →
      applyExtIndexes chk rules dir extList extSize idxs cells cache = .ok out →
      Inv out.1 := by
  intro idxs
  induction idxs with
  | nil =>
    intro cells cache out hInv h
    unfold applyExtIndexes at h
    simp only [Res.ok.injEq] at h
    rw [← h]
    exact hInv
  | cons index rest ih =>
    intro cells cache out hInv h
    unfold applyExtIndexes at h
    cases hg : cells.list.get? index with
    | none =>
      rw [hg] at h
      simp only [orPanic, Bind.bind, Res.bind] at h
      exact Res.noConfusion h
    | some cell =>
      rw [hg] at h
      simp only [orPanic, Bind.bind, Res.bind] at h
      cases hpa : posAdd cell.position dir with
      | none =>
        rw [hpa] at h
        exact Res.noConfusion h
      | some npos =>
        rw [hpa] at h
        dsimp only at h
        cases hext : extList.get? (indexIn npos extSize) with
        | none =>
          rw [hext] at h
          exact Res.noConfusion h
        | some extVariant =>
          rw [hext] at h
          dsimp only at h
          cases hc : constrain cell chk [extVariant] (oppositeDir dir) rules cache with
          | err e => rw [hc] at h; exact Res.noConfusion h
          | panicked => rw [hc] at h; exact Res.noConfusion h
          | nofuel => rw [hc] at h; exact Res.noConfusion h
          | ok pr =>
            obtain ⟨cell', cache1⟩ := pr
            rw [hc] at h
            dsimp only at h
            obtain ⟨sockets, hshape⟩ := constrain_ok_shape hc
            obtain ⟨hnodC, hcolT, hcolF⟩ := hInv.1 index cell hg
            by_cases hne : (cell.entropy != cell'.entropy) = true
            · rw [if_pos hne] at h
              cases hse : Cells.set_entropy
                  ⟨cells.size, cells.list.set index cell', cells.entropy_cache⟩
                  cell.entropy index cell'.entropy with
              | none =>
                rw [hse] at h
                simp only [orPanic, Bind.bind, Res.bind] at h
                exact Res.noConfusion h
              | some cells2 =>
                rw [hse] at h
                simp only [orPanic, Bind.bind, Res.bind] at h
                obtain ⟨hl2, hs2, hsec⟩ := set_entropy_shape hse
                have hsec' : cells.entropy_cache.set cell.entropy index
                    cell'.entropy = some cells2.entropy_cache := hsec
                have hcolN : cell.isCollapsed = false := by
                  by_contra hcolX
                  rw [Bool.not_eq_false] at hcolX
                  obtain ⟨he0, _⟩ := hcolT hcolX
                  obtain ⟨hb1, _, _, _⟩ := set_bounds hsec'
                  omega
                have hcol' : cell'.isCollapsed = false := by
                  rw [(constrain_ok_subset hc).2.1, hcolN]
                have hnodup' : cell'.possibilities.Nodup := by
                  rw [hshape]
                  exact hnodC.filter _
                have hlen' : cell'.entropy = cell'.possibilities.length := by
                  rw [hshape]
                have hInv2 : Inv cells2 :=
                  @inv_congr ⟨cells.size, cells.list.set index cell',
                      cells2.entropy_cache⟩ cells2 (fun j => by rw [hl2]) rfl
                    (inv_update_cell hInv hg hnodup' hcol' hlen' hsec')
                cases hp : propagate chk rules cells2 cache1 index with
                | err e => rw [hp] at h; exact Res.noConfusion h
                | panicked => rw [hp] at h; exact Res.noConfusion h
                | nofuel => rw [hp] at h; exact Res.noConfusion h
                | ok pr2 =>
                  obtain ⟨cells3, cache2⟩ := pr2
                  rw [hp] at h
                  dsimp only at h
                  exact ih _ _ _ (propagate_inv hInv2 hp) h
            · rw [if_neg hne] at h
              simp only [bne_iff_ne, ne_eq, not_not] at hne
              by_cases hcol : cell.isCollapsed = true
              · exfalso
                obtain ⟨he0, _⟩ := hcolT hcol
                have hlen1 : 1 ≤ cell'.possibilities.length :=
                  List.length_pos.2 (constrain_ok_nonempty hc)
                have hent' : cell'.entropy = cell'.possibilities.length := by
                  rw [hshape]
                omega
              · rw [Bool.not_eq_true] at hcol
                obtain ⟨hentC, _, _⟩ := hcolF hcol
                have hent' : cell'.entropy
                    = (cell.possibilities.filter
                        (keepCheck chk rules (oppositeDir (oppositeDir dir))
                          sockets)).length := by
                  rw [hshape]
                have hlenEq : (cell.possibilities.filter
                    (keepCheck chk rules (oppositeDir (oppositeDir dir))
                      sockets)).length = cell.possibilities.length := by
                  omega
                have hfn : cell.possibilities.filter
                    (keepCheck chk rules (oppositeDir (oppositeDir dir)) sockets)
                    = cell.possibilities :=
                  List.Sublist.eq_of_length (List.filter_sublist _) hlenEq
                have hcellEq : cell' = cell := by
                  rw [hshape, hfn, ← hentC]
                have hInv1 : Inv ⟨cells.size, cells.list.set index cell',
                    cells.entropy_cache⟩ :=
                  @inv_congr cells ⟨cells.size, cells.list.set index cell',
                      cells.entropy_cache⟩ (fun j => by
                    rw [hcellEq]
                    exact get?_set_self cells.list index cell hg j) rfl hInv
                cases hp : propagate chk rules
                    ⟨cells.size, cells.list.set index cell', cells.entropy_cache⟩
                    cache1 index with
                | err e => rw [hp] at h; exact Res.noConfusion h
                | panicked => rw [hp] at h; exact Res.noConfusion h
                | nofuel => rw [hp] at h; exact Res.noConfusion h
                | ok pr2 =>
                  obtain ⟨cells3, cache2⟩ := pr2
                  rw [hp] at h
                  dsimp only at h
                  exact ih _ _ _ (propagate_inv hInv1 hp) h

theorem applyExternal_inv (chk : Nat → List Nat → Bool) (rules : Rules)
    (dim : Nat) :
    ∀ (ext : List (Nat × List Nat)) (cells : Cells) (cache : SocketCache)
      (out : Cells × SocketCache),
      Inv cells →
      applyExternal chk rules dim ext cells cache = .ok out → Inv out.1 := by
  intro ext
  induction ext with
  | nil =>
    intro cells cache out hInv h
    unfold applyExternal at h
    simp only [Res.ok.injEq] at h
    rw [← h]
    exact hInv
  | cons face rest ih =>
    intro cells cache out hInv h
    obtain ⟨dir, extList⟩ := face
    unfold applyExternal at h
    cases hu : cells.uncollapsed_indexes_along_dir dir dim with
    | none =>
      rw [hu] at h
      simp only [orPanic, Bind.bind, Res.bind] at h
      exact Res.noConfusion h
    | some idxs =>
      rw [hu] at h
      simp only [orPanic, Bind.bind, Res.bind] at h
      cases ha : applyExtIndexes chk rules dir extList cells.size idxs cells cache with
      | err e => rw [ha] at h; exact Res.noConfusion h
      | panicked => rw [ha] at h; exact Res.noConfusion h
      | nofuel => rw [ha] at h; exact Res.noConfusion h
      | ok pr =>
        obtain ⟨cells1, cache1⟩ := pr
        rw [ha] at h
        dsimp only at h
        exact ih _ _ _ (applyExtIndexes_inv chk rules dir extList cells.size
          idxs cells cache _ hInv ha) h

theorem applyPredetermined_inv (chk : Nat → List Nat → Bool) (rules : Rules) :
    ∀ (props : List (Nat × Nat)) (limits : List (Nat × Nat)) (cells : Cells)
      (cache : SocketCache) (out : List (Nat × Nat) × Cells × SocketCache),
      Inv cells →
      applyPredetermined chk rules props limits cells cache = .ok out →
      Inv out.2.1 := by
  intro props
  induction props with
  | nil =>
    intro limits cells cache out hInv h
    unfold applyPredetermined at h
    simp only [Res.ok.injEq] at h
    rw [← h]
    exact hInv
  | cons pr rest ih =>
    intro limits cells cache out hInv h
    obtain ⟨i, variant⟩ := pr
    unfold applyPredetermined at h
    cases hr : limitRevise limits variant cells with
    | none =>
      rw [hr] at h
      simp only [orPanic, Bind.bind, Res.bind] at h
      exact Res.noConfusion h
    | some pr2 =>
      obtain ⟨limits1, cells1⟩ := pr2
      rw [hr] at h
      simp only [orPanic, Bind.bind, Res.bind] at h
      cases hp : propagate chk rules cells1 cache i with
      | err e => rw [hp] at h; exact Res.noConfusion h
      | panicked => rw [hp] at h; exact Res.noConfusion h
      | nofuel => rw [hp] at h; exact Res.noConfusion h
      | ok pr3 =>
        obtain ⟨cells2, cache1⟩ := pr3
        rw [hp] at h
        dsimp only at h
        exact ih _ _ _ _ (propagate_inv (limitRevise_inv hInv hr) hp) h

theorem step_inv {chk : Nat → List Nat → Bool} {st : St} {r : Option Nat}
    {st' : St} (hInv : Inv st.cells) (h : step chk st = .ok (r, st')) :
    Inv st'.cells := by
  unfold step at h
  cases hd : designate st.cells st.rng with
  | err e => rw [hd] at h; exact Res.noConfusion h
  | panicked => rw [hd] at h; exact Res.noConfusion h
  | nofuel => rw [hd] at h; exact Res.noConfusion h
  | ok tri =>
    obtain ⟨picked, cells1, rng1⟩ := tri
    rw [hd] at h
    dsimp only at h
    have hInv1 : Inv cells1 := designate_inv hInv hd
    cases picked with
    | none =>
      have hst : ({ st with cells := cells1, rng := rng1 } : St) = st' :=
        congrArg Prod.snd (Res.ok.inj h)
      rw [← hst]
      exact hInv1
    | some index =>
      simp only [orPanic, Bind.bind, Res.bind] at h
      cases hg : cells1.list.get? index with
      | none =>
        rw [hg] at h
        exact Res.noConfusion h
      | some cell1 =>
        rw [hg] at h
        dsimp only at h
        cases hsel : cell1.selected_variant with
        | none =>
          rw [hsel] at h
          exact Res.noConfusion h
        | some possibility =>
          rw [hsel] at h
          dsimp only at h
          cases hrev : limitRevise st.limits possibility cells1 with
          | none =>
            rw [hrev] at h
            exact Res.noConfusion h
          | some pr =>
            obtain ⟨limits1, cells2⟩ := pr
            rw [hrev] at h
            dsimp only at h
            cases hp : propagate chk st.rules cells2 st.cache index with
            | err e => rw [hp] at h; exact Res.noConfusion h
            | panicked => rw [hp] at h; exact Res.noConfusion h
            | nofuel => rw [hp] at h; exact Res.noConfusion h
            | ok pr2 =>
              obtain ⟨cells3, cache1⟩ := pr2
              rw [hp] at h
              dsimp only at h
              have hst : (⟨cells3, st.rules, cache1, rng1, limits1⟩ : St) = st' :=
                congrArg Prod.snd (Res.ok.inj h)
              rw [← hst]
              exact propagate_inv (limitRevise_inv hInv1 hrev) hp

theorem nodup_ordSetOfList_go : ∀ (l acc : List Nat), acc.Nodup →
    (l.foldl (fun acc v => ordInsert acc v) acc).Nodup := by
  intro l
  induction l with
  | nil => intro acc h; exact h
  | cons x l ih =>
    intro acc h
    exact ih (ordInsert acc x) (nodup_ordInsert acc h x)

theorem nodup_ordSetOfList (l : List Nat) : (ordSetOfList l).Nodup :=
  nodup_ordSetOfList_go l [] List.nodup_nil

theorem getBucket_new {K e : Nat} {bkt : List Nat}
    (h : (EntropyCache.new K).getBucket e = some bkt) : bkt = [] := by
  unfold EntropyCache.new EntropyCache.getBucket at h
  by_cases he : e = 0
  · rw [if_pos he] at h
    exact Option.noConfusion h
  · rw [if_neg he] at h
    obtain ⟨hlt, hget⟩ := List.get?_eq_some.1 h
    rw [← hget]
    exact List.get_replicate [] _

/-- The full characterization of `cellsNewAux` over consecutively enumerated
input pairs: the produced cells mirror the input (seeded entries collapsed to
their variant, unseeded entries carrying the full ordered variant set), and
the cache gains exactly the unseeded indices in the `|all|` bucket. -/
theorem cellsNewAux_spec (size : List Nat) (all : List Nat) (dcount : Nat) :
    ∀ (input : List (Option Nat)) (base : Nat) (cache : EntropyCache)
      (list : List Cell) (cacheOut : EntropyCache),
      (∀ e bkt, cache.getBucket e = some bkt → bkt.Nodup ∧ ∀ i ∈ bkt, i < base) →
      cellsNewAux size all dcount all.length (List.enumFrom base input) cache
        = some (list, cacheOut) →
      list.length = input.length ∧
      cacheOut.buckets.length = cache.buckets.length ∧
      (∀ j, input.get? j = none → list.get? j = none) ∧
      (∀ j v, input.get? j = some (some v) →
        ∃ nb pos, list.get? j = some ⟨[v], 0, true, nb, pos⟩) ∧
      (∀ j, input.get? j = some none →
        1 ≤ all.length ∧ all.length ≤ cache.buckets.length ∧
        ∃ nb pos, list.get? j = some ⟨all, all.length, false, nb, pos⟩) ∧
      (∀ e bkt, cacheOut.getBucket e = some bkt → bkt.Nodup ∧
        ∀ i, i ∈ bkt ↔ ((∃ b0, cache.getBucket e = some b0 ∧ i ∈ b0) ∨
          (e = all.length ∧ base ≤ i ∧ i - base < input.length ∧
            input.get? (i - base) = some none))) := by
  intro input
  induction input with
  | nil =>
    intro base cache list cacheOut hstart h
    rw [show List.enumFrom base ([] : List (Option Nat)) = [] from rfl] at h
    unfold cellsNewAux at h
    simp only [Option.some_inj, Prod.mk.injEq] at h
    obtain ⟨hl, hc⟩ := h
    subst hl
    subst hc
    refine ⟨rfl, rfl, ?_, ?_, ?_, ?_⟩
    · intro j _
      cases j <;> rfl
    · intro j v hj
      cases j <;> exact Option.noConfusion hj
    · intro j hj
      cases j <;> exact Option.noConfusion hj
    · intro e bkt hbkt
      refine ⟨(hstart e bkt hbkt).1, fun i => ?_⟩
      constructor
      · intro hib
        exact Or.inl ⟨bkt, hbkt, hib⟩
      · rintro (⟨b0, hb0, hib⟩ | ⟨_, _, hlt, _⟩)
        · rw [hbkt] at hb0
          rw [Option.some_inj.1 hb0]
          exact hib
        · exact absurd hlt (by simp)
  | cons inp input' ih =>
    intro base cache list cacheOut hstart h
    rw [show List.enumFrom base (inp :: input')
        = (base, inp) :: List.enumFrom (base + 1) input' from rfl] at h
    unfold cellsNewAux at h
    dsimp only at h
    cases hnb : neighbors_of ((from_index base size).map (fun n => (n : Int)))
        size dcount with
    | none =>
      rw [hnb] at h
      simp only [Option.bind_eq_bind, Option.none_bind] at h
      exact Option.noConfusion h
    | some nbrs =>
      rw [hnb] at h
      simp only [Option.bind_eq_bind, Option.some_bind] at h
      cases inp with
      | some v =>
        dsimp only at h
        cases hrec : cellsNewAux size all dcount all.length
            (List.enumFrom (base + 1) input') cache with
        | none =>
          rw [hrec] at h
          simp only [Option.bind_eq_bind, Option.none_bind] at h
          exact Option.noConfusion h
        | some pr =>
          obtain ⟨cellsR, cacheOutR⟩ := pr
          rw [hrec] at h
          simp only [Option.bind_eq_bind, Option.some_bind, Option.pure_def,
            Option.some_inj, Prod.mk.injEq] at h
          obtain ⟨hl, hc⟩ := h
          subst hl
          subst hc
          have hstart' : ∀ e bkt, cache.getBucket e = some bkt →
              bkt.Nodup ∧ ∀ i ∈ bkt, i < base + 1 := fun e bkt hb =>
            ⟨(hstart e bkt hb).1,
             fun i hi => Nat.lt_succ_of_lt ((hstart e bkt hb).2 i hi)⟩
          obtain ⟨ih1, ih2, ih3, ih4, ih5, ih6⟩ :=
            ih (base + 1) cache cellsR cacheOutR hstart' hrec
          refine ⟨by simp [ih1], ih2, ?_, ?_, ?_, ?_⟩
          · intro j hj
            cases j with
            | zero => exact Option.noConfusion hj
            | succ j => exact ih3 j hj
          · intro j w hj
            cases j with
            | zero =>
              injection hj with h1
              injection h1 with h2
              subst h2
              exact ⟨nbrs, _, rfl⟩
            | succ j => exact ih4 j w hj
          · intro j hj
            cases j with
            | zero =>
              exfalso
              injection hj with h1
              exact Option.noConfusion h1
            | succ j => exact ih5 j hj
          · intro e bkt hbkt
            obtain ⟨hbnd, hbiff⟩ := ih6 e bkt hbkt
            have hlc : (some v :: input' : List (Option Nat)).length
                = input'.length + 1 := rfl
            refine ⟨hbnd, fun i => ?_⟩
            rw [hbiff i]
            constructor
            · rintro (hold | ⟨he, hge, hlt, hget⟩)
              · exact Or.inl hold
              · refine Or.inr ⟨he, by omega, by omega, ?_⟩
                have hk : i - base = (i - (base + 1)) + 1 := by omega
                rw [hk]
                exact hget
            · rintro (hold | ⟨he, hge, hlt, hget⟩)
              · exact Or.inl hold
              · by_cases hib : i = base
                · exfalso
                  rw [hib, Nat.sub_self] at hget
                  injection hget with h1
                  exact Option.noConfusion h1
                · refine Or.inr ⟨he, by omega, by omega, ?_⟩
                  have hk : i - base = (i - (base + 1)) + 1 := by omega
                  rw [hk] at hget
                  exact hget
      | none =>
        dsimp only at h
        cases hb : cache.getBucket all.length with
        | none =>
          rw [hb] at h
          simp only [Option.bind_eq_bind, Option.none_bind] at h
          exact Option.noConfusion h
        | some b =>
          rw [hb] at h
          simp only [Option.bind_eq_bind, Option.some_bind] at h
          cases hp1 : cache.putBucket all.length (ordInsert b base) with
          | none =>
            rw [hp1] at h
            simp only [Option.none_bind] at h
            exact Option.noConfusion h
          | some cache1 =>
            rw [hp1] at h
            simp only [Option.some_bind] at h
            cases hrec : cellsNewAux size all dcount all.length
                (List.enumFrom (base + 1) input') cache1 with
            | none =>
              rw [hrec] at h
              simp only [Option.none_bind] at h
              exact Option.noConfusion h
            | some pr =>
              obtain ⟨cellsR, cacheOutR⟩ := pr
              rw [hrec] at h
              simp only [Option.some_bind, Option.pure_def, Option.some_inj,
                Prod.mk.injEq] at h
              obtain ⟨hl, hc⟩ := h
              subst hl
              subst hc
              obtain ⟨hall1, hallK⟩ := getBucket_bounds cache hb
              have hlen1 : cache1.buckets.length = cache.buckets.length :=
                putBucket_length cache hp1
              have hget1 := getBucket_putBucket cache hp1
              obtain ⟨hbnodup, hbbound⟩ := hstart _ _ hb
              have hstart1 : ∀ e bkt, cache1.getBucket e = some bkt →
                  bkt.Nodup ∧ ∀ i ∈ bkt, i < base + 1 := by
                intro e bkt hbkt
                rw [hget1 e] at hbkt
                by_cases he : e = all.length
                · rw [if_pos he] at hbkt
                  rw [← Option.some_inj.1 hbkt]
                  refine ⟨nodup_ordInsert b hbnodup base, ?_⟩
                  intro i hi
                  rcases (mem_ordInsert b base i).1 hi with hib | hieq
                  · exact Nat.lt_succ_of_lt (hbbound i hib)
                  · omega
                · rw [if_neg he] at hbkt
                  obtain ⟨hnd2, hb2⟩ := hstart e bkt hbkt
                  exact ⟨hnd2, fun i hi => Nat.lt_succ_of_lt (hb2 i hi)⟩
              obtain ⟨ih1, ih2, ih3, ih4, ih5, ih6⟩ :=
                ih (base + 1) cache1 cellsR cacheOutR hstart1 hrec
              refine ⟨by simp [ih1], by rw [ih2, hlen1], ?_, ?_, ?_, ?_⟩
              · intro j hj
                cases j with
                | zero => exact Option.noConfusion hj
                | succ j => exact ih3 j hj
              · intro j w hj
                cases j with
                | zero =>
                  exfalso
                  injection hj with h1
                  exact Option.noConfusion h1
                | succ j => exact ih4 j w hj
              · intro j hj
                cases j with
                | zero => exact ⟨hall1, hallK, nbrs, _, rfl⟩
                | succ j =>
                  obtain ⟨b1, b2, hrest⟩ := ih5 j hj
                  exact ⟨hall1, by omega, hrest⟩
              · intro e bkt hbkt
                obtain ⟨hbnd, hbiff⟩ := ih6 e bkt hbkt
                have hlc : (none :: input' : List (Option Nat)).length
                    = input'.length + 1 := rfl
                refine ⟨hbnd, fun i => ?_⟩
                rw [hbiff i]
                by_cases he : e = all.length
                · subst he
                  constructor
                  · rintro (⟨b0, hb0, hib0⟩ | ⟨_, hge, hlt, hget⟩)
                    · rw [hget1, if_pos rfl] at hb0
                      rw [← Option.some_inj.1 hb0] at hib0
                      rcases (mem_ordInsert b base i).1 hib0 with hib | hieq
                      · exact Or.inl ⟨b, hb, hib⟩
                      · refine Or.inr ⟨rfl, by omega, by omega, ?_⟩
                        rw [hieq, Nat.sub_self]
                        rfl
                    · refine Or.inr ⟨rfl, by omega, by omega, ?_⟩
                      have hk : i - base = (i - (base + 1)) + 1 := by omega
                      rw [hk]
                      exact hget
                  · rintro (⟨b0, hb0, hib0⟩ | ⟨_, hge, hlt, hget⟩)
                    · rw [hb] at hb0
                      rw [← Option.some_inj.1 hb0] at hib0
                      exact Or.inl ⟨ordInsert b base, by rw [hget1, if_pos rfl],
                        (mem_ordInsert b base i).2 (Or.inl hib0)⟩
                    · by_cases hib : i = base
                      · exact Or.inl ⟨ordInsert b base, by rw [hget1, if_pos rfl],
                          (mem_ordInsert b base i).2 (Or.inr hib)⟩
                      · refine Or.inr ⟨rfl, by omega, by omega, ?_⟩
                        have hk : i - base = (i - (base + 1)) + 1 := by omega
                        rw [hk] at hget
                        exact hget
                · have hge1 : cache1.getBucket e = cache.getBucket e := by
                    rw [hget1, if_neg he]
                  constructor
                  · rintro (⟨b0, hb0, hib0⟩ | ⟨heq, _⟩)
                    · rw [hge1] at hb0
                      exact Or.inl ⟨b0, hb0, hib0⟩
                    · exact absurd heq he
                  · rintro (⟨b0, hb0, hib0⟩ | ⟨heq, _⟩)
                    · rw [← hge1] at hb0
                      exact Or.inl ⟨b0, hb0, hib0⟩
                    · exact absurd heq he

/-- `Cells::new` establishes the invariant. -/
theorem new_inv {size : List Nat} {input : List (Option Nat)} {rules : Rules}
    {dcount : Nat} {cells : Cells}
    (h : Cells.new size input rules dcount = some cells) : Inv cells := by
  unfold Cells.new at h
  dsimp only at h
  cases hrec : cellsNewAux size (ordSetOfList rules.keys) dcount
      (ordSetOfList rules.keys).length input.enum
      (EntropyCache.new (ordSetOfList rules.keys).length) with
  | none =>
    rw [hrec] at h
    simp only [Option.bind_eq_bind, Option.none_bind] at h
    exact Option.noConfusion h
  | some pr =>
    obtain ⟨list, cacheOut⟩ := pr
    rw [hrec] at h
    simp only [Option.bind_eq_bind, Option.some_bind, Option.pure_def,
      Option.some_inj] at h
    subst h
    have hstart : ∀ e bkt, (EntropyCache.new
        (ordSetOfList rules.keys).length).getBucket e = some bkt →
        bkt.Nodup ∧ ∀ i ∈ bkt, i < 0 := by
      intro e bkt hb
      rw [getBucket_new hb]
      exact ⟨List.nodup_nil, fun i hi => absurd hi (List.not_mem_nil i)⟩
    have henum : input.enum = List.enumFrom 0 input := rfl
    rw [henum] at hrec
    obtain ⟨s1, s2, s3, s4, s5, s6⟩ := cellsNewAux_spec size
      (ordSetOfList rules.keys) dcount input 0 _ list cacheOut hstart hrec
    have hKnew : (EntropyCache.new
        (ordSetOfList rules.keys).length).buckets.length
        = (ordSetOfList rules.keys).length := by
      unfold EntropyCache.new
      exact List.length_replicate _ _
    refine ⟨?_, ?_, ?_⟩
    · intro i c hg
      show CellWf cacheOut.buckets.length c
      cases hin : input.get? i with
      | none =>
        rw [s3 i hin] at hg
        exact Option.noConfusion hg
      | some o =>
        cases o with
        | some v =>
          obtain ⟨nb, pos, hgv⟩ := s4 i v hin
          rw [hgv] at hg
          rw [← Option.some_inj.1 hg]
          exact ⟨List.nodup_singleton v, fun _ => ⟨rfl, rfl⟩,
            fun hf => Bool.noConfusion hf⟩
        | none =>
          obtain ⟨h1, hK, nb, pos, hgv⟩ := s5 i hin
          rw [hgv] at hg
          rw [← Option.some_inj.1 hg]
          refine ⟨nodup_ordSetOfList rules.keys, fun hf => Bool.noConfusion hf,
            fun _ => ⟨rfl, h1, ?_⟩⟩
          rw [s2, hKnew]
    · intro e bkt hbkt
      exact (s6 e bkt hbkt).1
    · intro e bkt hbkt i
      obtain ⟨_, hiff⟩ := s6 e bkt hbkt
      rw [hiff i]
      constructor
      · rintro (⟨b0, hb0, hib0⟩ | ⟨he, _, hlt, hget⟩)
        · rw [getBucket_new hb0] at hib0
          exact absurd hib0 (List.not_mem_nil i)
        · rw [Nat.sub_zero] at hlt hget
          obtain ⟨_, _, nb, pos, hgv⟩ := s5 i hget
          exact ⟨_, hgv, rfl, he.symm⟩
      · rintro ⟨c, hg, hcolF, hent⟩
        cases hin : input.get? i with
        | none =>
          rw [s3 i hin] at hg
          exact Option.noConfusion hg
        | some o =>
          cases o with
          | some v =>
            obtain ⟨nb, pos, hgv⟩ := s4 i v hin
            rw [hgv] at hg
            rw [← Option.some_inj.1 hg] at hcolF
            exact Bool.noConfusion hcolF
          | none =>
            obtain ⟨_, _, nb, pos, hgv⟩ := s5 i hin
            rw [hgv] at hg
            have hceq := Option.some_inj.1 hg
            refine Or.inr ⟨?_, Nat.zero_le i, ?_, ?_⟩
            · rw [← hceq] at hent
              exact hent.symm
            · rw [Nat.sub_zero]
              exact (List.get?_eq_some.1 hin).choose
            · rw [Nat.sub_zero]
              exact hin

/-- `StateBuilder::build` establishes the invariant. -/
theorem build_inv {chk : Nat → List Nat → Bool} {inp : BuildInput} {st : St}
    (h : build chk inp = .ok st) : Inv st.cells := by
  unfold build at h
  by_cases hdim : inp.dim ≠ inp.dcount / 2
  · rw [if_pos hdim] at h
    exact Res.noConfusion h
  · rw [if_neg hdim] at h
    simp only [orPanic, Bind.bind, Res.bind] at h
    cases hbuf : outputBuffer inp with
    | none =>
      rw [hbuf] at h
      exact Res.noConfusion h
    | some buffer =>
      rw [hbuf] at h
      simp only [orPanic, Bind.bind, Res.bind] at h
      cases hnew : Cells.new inp.size buffer inp.rules inp.dcount with
      | none =>
        rw [hnew] at h
        exact Res.noConfusion h
      | some cells =>
        rw [hnew] at h
        simp only [orPanic, Bind.bind, Res.bind] at h
        cases hae : applyExternal chk inp.rules inp.dim inp.ext cells
            SocketCache.empty with
        | err e => rw [hae] at h; exact Res.noConfusion h
        | panicked => rw [hae] at h; exact Res.noConfusion h
        | nofuel => rw [hae] at h; exact Res.noConfusion h
        | ok pr =>
          obtain ⟨cells1, cache1⟩ := pr
          rw [hae] at h
          dsimp only at h
          cases hap : applyPredetermined chk inp.rules
              (cells1.list.enum.filterMap (fun p =>
                (p.2.selected_variant).map (fun v => (p.1, v))))
              inp.limits cells1 cache1 with
          | err e => rw [hap] at h; exact Res.noConfusion h
          | panicked => rw [hap] at h; exact Res.noConfusion h
          | nofuel => rw [hap] at h; exact Res.noConfusion h
          | ok pr2 =>
            obtain ⟨limits1, cells2, cache2⟩ := pr2
            rw [hap] at h
            dsimp only at h
            have hst := congrArg St.cells (Res.ok.inj h)
            rw [← hst]
            exact applyPredetermined_inv chk inp.rules _ _ _ _ _
              (applyExternal_inv chk inp.rules inp.dim _ _ _ _ (new_inv hnew) hae)
              hap

/-- The reachable engine states: freshly built, or one collapse step after a
reachable state. -/
inductive Reachable (chk : Nat → List Nat → Bool) : St → Prop
  | build (inp : BuildInput) (st : St) :
      Wfc.build chk inp = .ok st → Reachable chk st
  | step (st st' : St) (r : Option Nat) : Reachable chk st →
      Wfc.step chk st = .ok (r, st') → Reachable chk st'

theorem reachable_inv {chk : Nat → List Nat → Bool} {st : St}
    (h : Reachable chk st) : Inv st.cells := by
  induction h with
  | build inp st hb => exact build_inv hb
  | step st st' r _ hs ih => exact step_inv ih hs

/-- Claim C2: in every reachable engine state (after build and after each
collapse step, including the adjuster revisions those operations run), every
uncollapsed cell's entropy equals the size of its candidate set, the cell's
index lies in the entropy-cache bucket numbered by that entropy and in no
other bucket, and a collapsed cell's index lies in no bucket. -/
theorem c2_entropy_buckets {chk : Nat → List Nat → Bool} {st : St}
    (h : Reachable chk st) :
    ∀ i c, st.cells.list.get? i = some c →
      (c.isCollapsed = false →
        c.entropy = c.possibilities.length ∧
        (∃ b, st.cells.entropy_cache.getBucket c.entropy = some b ∧ i ∈ b) ∧
        ∀ e b, st.cells.entropy_cache.getBucket e = some b → i ∈ b →
          e = c.entropy) ∧
      (c.isCollapsed = true →
        ∀ e b, st.cells.entropy_cache.getBucket e = some b → i ∉ b) := by
  obtain ⟨hwf, hnd, hmem⟩ := reachable_inv h
  intro i c hg
  constructor
  · intro hcol
    obtain ⟨hent, h1, hK⟩ := (hwf i c hg).2.2 hcol
    refine ⟨hent, ?_, ?_⟩
    · obtain ⟨b, hb⟩ := @getBucket_isSome st.cells.entropy_cache c.entropy
        (by omega) (by omega)
      exact ⟨b, hb, (hmem _ _ hb i).2 ⟨c, hg, hcol, rfl⟩⟩
    · intro e b hb hib
      obtain ⟨c2, hg2, _, he⟩ := (hmem e b hb i).1 hib
      rw [hg] at hg2
      rw [← Option.some_inj.1 hg2] at he
      exact he.symm
  · intro hcol e b hb hib
    obtain ⟨c2, hg2, hcolF, _⟩ := (hmem e b hb i).1 hib
    rw [hg] at hg2
    rw [← Option.some_inj.1 hg2] at hcolF
    rw [hcol] at hcolF
    exact Bool.noConfusion hcolF

/-- Witness for C2 at the concretely built one-cell state `stW1`: its single
uncollapsed cell sits in bucket 2, its entropy. -/
theorem c2_entropy_buckets_witness :
    ∃ b, stW1.cells.entropy_cache.getBucket 2 = some b ∧ 0 ∈ b := by
  have h := (c2_entropy_buckets (@Reachable.build unaryCheck inpW1 stW1
    (by decide)) 0 ⟨[0, 1], 2, false, [], [0]⟩ rfl).1 rfl
  exact h.2.1

/-- Claim C4: runs are deterministic — two runs constructed from equal inputs
(size, rules, seeds, external borders, seed of the PRNG, constraint) produce
identical results: the same final variant sequence, or the identical error.
In this embedding the seeded PRNG is a pure function of its seed, exactly the
determinism the seeded `ChaCha20Rng` provides. -/
theorem c4_determinism (chk : Nat → List Nat → Bool) (inp1 inp2 : BuildInput)
    (h : inp1 = inp2) :
    runWfc chk inp1 = runWfc chk inp2 ∧
    (∀ l, runWfc chk inp1 = .ok l → runWfc chk inp2 = .ok l) ∧
    (∀ e, runWfc chk inp1 = .err e → runWfc chk inp2 = .err e) := by
  subst h
  exact ⟨rfl, fun l hl => hl, fun e he => he⟩

/-- Witness for C4 at a concrete input. -/
theorem c4_determinism_witness :
    runWfc unaryCheck inpW1 = runWfc unaryCheck inpW1 ∧
    (∀ l, runWfc unaryCheck inpW1 = .ok l → runWfc unaryCheck inpW1 = .ok l) ∧
    (∀ e, runWfc unaryCheck inpW1 = .err e → runWfc unaryCheck inpW1 = .err e) :=
  c4_determinism unaryCheck inpW1 inpW1 rfl

theorem constrain_err_not_dim {cell : Cell} {chk : Nat → List Nat → Bool}
    {P : List Nat} {d : Nat} {rules : Rules} {cache : SocketCache} {e : Err}
    (h : constrain cell chk P d rules cache = .err e) :
    ∀ a b, e ≠ .dimensionMismatch a b := by
  unfold constrain at h
  cases hf : socketCacheFetch cache rules P d with
  | none =>
    rw [hf] at h
    exact Res.noConfusion h
  | some pr =>
    obtain ⟨sockets, cache0⟩ := pr
    rw [hf] at h
    simp only at h
    by_cases hempty : (cell.possibilities.filter
        (keepCheck chk rules (oppositeDir d) sockets)).isEmpty = true
    · rw [if_pos hempty] at h
      cases hpa : posAdd cell.position (oppositeDir d) with
      | some npos =>
        rw [hpa] at h
        injection h with he
        intro a b hc
        rw [← he] at hc
        exact Err.noConfusion hc
      | none =>
        rw [hpa] at h
        exact Res.noConfusion h
    · rw [if_neg hempty] at h
      exact Res.noConfusion h

theorem propagateNeighbors_err_not_dim (chk : Nat → List Nat → Bool)
    (rules : Rules) (ci : Nat) :
    ∀ (nbrs : List (Nat × Nat)) (cells : Cells) (cache : SocketCache)
      (stack : List Nat) (e : Err),
      propagateNeighbors chk rules ci nbrs cells cache stack = .err e →
      ∀ a b, e ≠ .dimensionMismatch a b := by
  intro nbrs
  induction nbrs with
  | nil =>
    intro cells cache stack e h
    unfold propagateNeighbors at h
    exact Res.noConfusion h
  | cons nb rest ih =>
    intro cells cache stack e h
    obtain ⟨ni, dir⟩ := nb
    unfold propagateNeighbors at h
    cases hg1 : cells.list.get? ci with
    | none =>
      rw [hg1] at h
      simp only [orPanic, Bind.bind, Res.bind] at h
      exact Res.noConfusion h
    | some cell =>
      rw [hg1] at h
      simp only [orPanic, Bind.bind, Res.bind] at h
      cases hg2 : cells.list.get? ni with
      | none =>
        rw [hg2] at h
        simp only [orPanic, Bind.bind, Res.bind] at h
        exact Res.noConfusion h
      | some neighbor =>
        rw [hg2] at h
        simp only [orPanic, Bind.bind, Res.bind] at h
        cases hc : constrain neighbor chk cell.possibilities dir rules cache with
        | err e0 =>
          rw [hc] at h
          injection h with he
          rw [← he]
          exact constrain_err_not_dim hc
        | panicked => rw [hc] at h; exact Res.noConfusion h
        | nofuel => rw [hc] at h; exact Res.noConfusion h
        | ok pr =>
          obtain ⟨neighbor', cache'⟩ := pr
          rw [hc] at h
          simp only at h
          by_cases hne : (neighbor.entropy != neighbor'.entropy) = true
          · rw [if_pos hne] at h
            cases hse : Cells.set_entropy
                ⟨cells.size, cells.list.set ni neighbor', cells.entropy_cache⟩
                neighbor.entropy ni neighbor'.entropy with
            | none =>
              rw [hse] at h
              exact Res.noConfusion h
            | some cells2 =>
              rw [hse] at h
              exact ih _ _ _ _ h
          · rw [if_neg hne] at h
            exact ih _ _ _ _ h

theorem propagateLoop_err_not_dim (chk : Nat → List Nat → Bool) (rules : Rules) :
    ∀ (fuel : Nat) (cells : Cells) (cache : SocketCache) (stack : List Nat)
      (e : Err),
      propagateLoop chk rules fuel cells cache stack = .err e →
      ∀ a b, e ≠ .dimensionMismatch a b := by
  intro fuel
  induction fuel with
  | zero =>
    intro cells cache stack e h
    exact Res.noConfusion h
  | succ fuel ih =>
    intro cells cache stack e h
    cases stack with
    | nil =>
      unfold propagateLoop at h
      exact Res.noConfusion h
    | cons ci stack =>
      unfold propagateLoop at h
      cases hg : cells.list.get? ci with
      | none =>
        rw [hg] at h
        simp only [orPanic, Bind.bind, Res.bind] at h
        exact Res.noConfusion h
      | some cell =>
        rw [hg] at h
        simp only [orPanic, Bind.bind, Res.bind] at h
        cases hp : propagateNeighbors chk rules ci
            (cell.neighbors.filter (fun p =>
              ((cells.list.get? p.1).map (fun c => !c.collapsed)).getD false))
            cells cache stack with
        | err e0 =>
          rw [hp] at h
          injection h with he
          rw [← he]
          exact propagateNeighbors_err_not_dim chk rules ci _ _ _ _ _ hp
        | panicked => rw [hp] at h; exact Res.noConfusion h
        | nofuel => rw [hp] at h; exact Res.noConfusion h
        | ok pr =>
          obtain ⟨cells1, cache1, stack1⟩ := pr
          rw [hp] at h
          exact ih _ _ _ _ h

theorem propagate_err_not_dim {chk : Nat → List Nat → Bool} {rules : Rules}
    {cells : Cells} {cache : SocketCache} {ci : Nat} {e : Err}
    (h : propagate chk rules cells cache ci = .err e) :
    ∀ a b, e ≠ .dimensionMismatch a b :=
  propagateLoop_err_not_dim chk rules _ cells cache [ci] e h

theorem applyExtIndexes_err_not_dim (chk : Nat → List Nat → Bool) (rules : Rules)
    (dir : Nat) (extList extSize : List Nat) :
    ∀ (idxs : List Nat) (cells : Cells) (cache : SocketCache) (e : Err),
      applyExtIndexes chk rules dir extList extSize idxs cells cache = .err e →
      ∀ a b, e ≠ .dimensionMismatch a b := by
  intro idxs
  induction idxs with
  | nil =>
    intro cells cache e h
    unfold applyExtIndexes at h
    exact Res.noConfusion h
  | cons index rest ih =>
    intro cells cache e h
    unfold applyExtIndexes at h
    cases hg : cells.list.get? index with
    | none =>
      rw [hg] at h
      simp only [orPanic, Bind.bind, Res.bind] at h
      exact Res.noConfusion h
    | some cell =>
      rw [hg] at h
      simp only [orPanic, Bind.bind, Res.bind] at h
      cases hpa : posAdd cell.position dir with
      | none =>
        rw [hpa] at h
        exact Res.noConfusion h
      | some npos =>
        rw [hpa] at h
        dsimp only at h
        cases hext : extList.get? (indexIn npos extSize) with
        | none =>
          rw [hext] at h
          exact Res.noConfusion h
        | some extVariant =>
          rw [hext] at h
          dsimp only at h
          cases hc : constrain cell chk [extVariant] (oppositeDir dir) rules cache with
          | err e0 =>
            rw [hc] at h
            injection h with he
            rw [← he]
            exact constrain_err_not_dim hc
          | panicked => rw [hc] at h; exact Res.noConfusion h
          | nofuel => rw [hc] at h; exact Res.noConfusion h
          | ok pr =>
            obtain ⟨cell', cache1⟩ := pr
            rw [hc] at h
            dsimp only at h
            by_cases hne : (cell.entropy != cell'.entropy) = true
            · rw [if_pos hne] at h
              cases hse : Cells.set_entropy
                  ⟨cells.size, cells.list.set index cell', cells.entropy_cache⟩
                  cell.entropy index cell'.entropy with
              | none =>
                rw [hse] at h
                simp only [orPanic, Bind.bind, Res.bind] at h
                exact Res.noConfusion h
              | some cells2 =>
                rw [hse] at h
                simp only [orPanic, Bind.bind, Res.bind] at h
                cases hp : propagate chk rules cells2 cache1 index with
                | err e0 =>
                  rw [hp] at h
                  injection h with he
                  rw [← he]
                  exact propagate_err_not_dim hp
                | panicked => rw [hp] at h; exact Res.noConfusion h
                | nofuel => rw [hp] at h; exact Res.noConfusion h
                | ok pr2 =>
                  obtain ⟨cells3, cache2⟩ := pr2
                  rw [hp] at h
                  dsimp only at h
                  exact ih _ _ _ h
            · rw [if_neg hne] at h
              cases hp : propagate chk rules
                  ⟨cells.size, cells.list.set index cell', cells.entropy_cache⟩
                  cache1 index with
              | err e0 =>
                rw [hp] at h
                injection h with he
                rw [← he]
                exact propagate_err_not_dim hp
              | panicked => rw [hp] at h; exact Res.noConfusion h
              | nofuel => rw [hp] at h; exact Res.noConfusion h
              | ok pr2 =>
                obtain ⟨cells3, cache2⟩ := pr2
                rw [hp] at h
                dsimp only at h
                exact ih _ _ _ h

theorem applyExternal_err_not_dim (chk : Nat → List Nat → Bool) (rules : Rules)
    (dim : Nat) :
    ∀ (ext : List (Nat × List Nat)) (cells : Cells) (cache : SocketCache)
      (e : Err),
      applyExternal chk rules dim ext cells cache = .err e →
      ∀ a b, e ≠ .dimensionMismatch a b := by
  intro ext
  induction ext with
  | nil =>
    intro cells cache e h
    unfold applyExternal at h
    exact Res.noConfusion h
  | cons face rest ih =>
    intro cells cache e h
    obtain ⟨dir, extList⟩ := face
    unfold applyExternal at h
    cases hu : cells.uncollapsed_indexes_along_dir dir dim with
    | none =>
      rw [hu] at h
      simp only [orPanic, Bind.bind, Res.bind] at h
      exact Res.noConfusion h
    | some idxs =>
      rw [hu] at h
      simp only [orPanic, Bind.bind, Res.bind] at h
      cases ha : applyExtIndexes chk rules dir extList cells.size idxs cells cache with
      | err e0 =>
        rw [ha] at h
        injection h with he
        rw [← he]
        exact applyExtIndexes_err_not_dim chk rules dir extList cells.size
          _ _ _ _ ha
      | panicked => rw [ha] at h; exact Res.noConfusion h
      | nofuel => rw [ha] at h; exact Res.noConfusion h
      | ok pr =>
        obtain ⟨cells1, cache1⟩ := pr
        rw [ha] at h
        dsimp only at h
        exact ih _ _ _ h

theorem applyPredetermined_err_not_dim (chk : Nat → List Nat → Bool)
    (rules : Rules) :
    ∀ (props : List (Nat × Nat)) (limits : List (Nat × Nat)) (cells : Cells)
      (cache : SocketCache) (e : Err),
      applyPredetermined chk rules props limits cells cache = .err e →
      ∀ a b, e ≠ .dimensionMismatch a b := by
  intro props
  induction props with
  | nil =>
    intro limits cells cache e h
    unfold applyPredetermined at h
    exact Res.noConfusion h
  | cons pr rest ih =>
    intro limits cells cache e h
    obtain ⟨i, variant⟩ := pr
    unfold applyPredetermined at h
    cases hr : limitRevise limits variant cells with
    | none =>
      rw [hr] at h
      simp only [orPanic, Bind.bind, Res.bind] at h
      exact Res.noConfusion h
    | some pr2 =>
      obtain ⟨limits1, cells1⟩ := pr2
      rw [hr] at h
      simp only [orPanic, Bind.bind, Res.bind] at h
      cases hp : propagate chk rules cells1 cache i with
      | err e0 =>
        rw [hp] at h
        injection h with he
        rw [← he]
        exact propagate_err_not_dim hp
      | panicked => rw [hp] at h; exact Res.noConfusion h
      | nofuel => rw [hp] at h; exact Res.noConfusion h
      | ok pr3 =>
        obtain ⟨cells2, cache1⟩ := pr3
        rw [hp] at h
        dsimp only at h
        exact ih _ _ _ _ h

def inp25 : BuildInput := ⟨2, 5, [1, 1], 0, [], rulesW, [], []⟩

/-- Claim C7 counterexample: with DIM = 2 and a direction enumeration of 5
values, DIM · 2 ≠ 5, yet `build` does not fail with `DimensionMismatch` — the
source tests `DIM != D::COUNT / 2` with truncating integer division
(5 / 2 = 2), accepts the configuration, and panics later instead. -/
theorem c7_dimension_check_counterexample :
    2 * 2 ≠ 5 ∧ build unaryCheck inp25 = .panicked ∧
    build unaryCheck inp25 ≠ .err (.dimensionMismatch 2 5) := by decide

/-- Claim C7 (amended): `build` fails with `DimensionMismatch{DIM, |D|}` if
and only if `DIM ≠ |D| / 2` under truncating integer division — the test the
source actually performs, which differs from `DIM · 2 ≠ |D|` whenever `|D|`
is odd — and the error carries exactly `DIM` and `|D|`; past that check no
later stage of `build` ever produces a `DimensionMismatch`. -/
theorem c7_dimension_check (chk : Nat → List Nat → Bool) (inp : BuildInput)
    (d n : Nat) :
    build chk inp = .err (.dimensionMismatch d n) ↔
      (inp.dim ≠ inp.dcount / 2 ∧ d = inp.dim ∧ n = inp.dcount) := by
  constructor
  · intro h
    by_cases hdim : inp.dim ≠ inp.dcount / 2
    · unfold build at h
      rw [if_pos hdim] at h
      injection h with he
      injection he with h1 h2
      exact ⟨hdim, h1.symm, h2.symm⟩
    · exfalso
      unfold build at h
      rw [if_neg hdim] at h
      simp only [orPanic, Bind.bind, Res.bind] at h
      cases hbuf : outputBuffer inp with
      | none =>
        rw [hbuf] at h
        exact Res.noConfusion h
      | some buffer =>
        rw [hbuf] at h
        simp only [orPanic, Bind.bind, Res.bind] at h
        cases hnew : Cells.new inp.size buffer inp.rules inp.dcount with
        | none =>
          rw [hnew] at h
          exact Res.noConfusion h
        | some cells =>
          rw [hnew] at h
          simp only [orPanic, Bind.bind, Res.bind] at h
          cases hae : applyExternal chk inp.rules inp.dim inp.ext cells
              SocketCache.empty with
          | err e0 =>
            rw [hae] at h
            injection h with he
            exact applyExternal_err_not_dim chk inp.rules inp.dim _ _ _ _ hae
              d n he
          | panicked => rw [hae] at h; exact Res.noConfusion h
          | nofuel => rw [hae] at h; exact Res.noConfusion h
          | ok pr =>
            obtain ⟨cells1, cache1⟩ := pr
            rw [hae] at h
            dsimp only at h
            cases hap : applyPredetermined chk inp.rules
                (cells1.list.enum.filterMap (fun p =>
                  (p.2.selected_variant).map (fun v => (p.1, v))))
                inp.limits cells1 cache1 with
            | err e0 =>
              rw [hap] at h
              injection h with he
              exact applyPredetermined_err_not_dim chk inp.rules _ _ _ _ _ hap
                d n he
            | panicked => rw [hap] at h; exact Res.noConfusion h
            | nofuel => rw [hap] at h; exact Res.noConfusion h
            | ok pr2 =>
              obtain ⟨limits1, cells2, cache2⟩ := pr2
              rw [hap] at h
              exact Res.noConfusion h
  · rintro ⟨hdim, hd, hn⟩
    unfold build
    rw [if_pos hdim, hd, hn]

def ruleBadC8 : Rule := ⟨[(0, 1), (1, 0), (2, 0), (3, 0)]⟩

def rulesBadC8 : Rules := ⟨[(0, ruleBadC8), (1, ruleBadC8)]⟩

def inpContra : BuildInput := ⟨2, 4, [2, 1], 5, [], rulesBadC8, [([0, 0], 0)], []⟩

/-- Claim C8: on a concretely contradictory grid (both variants of the cell
at (1,0) demand socket 1 from their -x neighbor while the seeded neighbor
offers only socket 0) the engine raises a `Contradiction` error that carries
exactly two payloads — the failing cell's position and the neighbor
position. The `direction`, `neighbor_variants` and `neighbor_sockets` fields
the error type of `err.rs` declares are not part of the value the engine
constructs at `state.rs:295`. -/
theorem c8_contradiction_payload :
    build unaryCheck inpContra = .err (.contradiction [1, 0] [0, 0]) := by decide

theorem mapM_head_spec : ∀ (cs : List Cell) (l : List Nat),
    cs.mapM (fun c => c.possibilities.head?) = some l ↔
      ((∀ c ∈ cs, c.possibilities ≠ []) ∧
       l = cs.map (fun c => c.possibilities.headD 0)) := by
  intro cs
  induction cs with
  | nil =>
    intro l
    rw [List.mapM_nil]
    simp only [Option.pure_def, Option.some_inj]
    constructor
    · intro h
      refine ⟨fun c hc => absurd hc (List.not_mem_nil c), ?_⟩
      rw [← h]
      rfl
    · rintro ⟨_, hl⟩
      rw [hl]
      rfl
  | cons c cs ih =>
    intro l
    rw [List.mapM_cons]
    cases hh : c.possibilities.head? with
    | none =>
      have hpnil : c.possibilities = [] := by
        cases hcp : c.possibilities with
        | nil => rfl
        | cons b t =>
          rw [hcp] at hh
          exact Option.noConfusion hh
      constructor
      · intro h
        simp only [Option.bind_eq_bind, Option.none_bind] at h
        exact Option.noConfusion h
      · rintro ⟨hall, _⟩
        exact absurd hpnil (hall c (List.mem_cons_self c cs))
    | some a =>
      have hhd : c.possibilities.headD 0 = a := by
        cases hcp : c.possibilities with
        | nil =>
          rw [hcp] at hh
          exact Option.noConfusion hh
        | cons b t =>
          rw [hcp] at hh
          exact Option.some_inj.1 hh
      have hpne : c.possibilities ≠ [] := by
        intro hnil
        rw [hnil] at hh
        exact Option.noConfusion hh
      simp only [Option.bind_eq_bind, Option.some_bind]
      cases hm : cs.mapM (fun c => c.possibilities.head?) with
      | none =>
        simp only [Option.none_bind]
        constructor
        · intro h
          exact Option.noConfusion h
        · rintro ⟨hall, hl⟩
          have hsome := (ih (cs.map (fun c => c.possibilities.headD 0))).2
            ⟨fun c' hc' => hall c' (List.mem_cons_of_mem _ hc'), rfl⟩
          rw [hm] at hsome
          exact Option.noConfusion hsome
      | some vs =>
        simp only [Option.some_bind, Option.pure_def, Option.some_inj]
        obtain ⟨hall', hvs⟩ := (ih vs).1 hm
        constructor
        · intro h
          refine ⟨?_, ?_⟩
          · intro c' hc'
            rcases List.mem_cons.1 hc' with hceq | hmemc
            · rw [hceq]
              exact hpne
            · exact hall' c' hmemc
          · rw [← h]
            simp only [List.map_cons]
            rw [hhd, hvs]
        · rintro ⟨hall, hl⟩
          rw [hl]
          simp only [List.map_cons]
          rw [hhd, hvs]

/-- Claim C9 (amended): the consuming conversion returns `Some` exactly when
every cell still has at least one candidate — collapsed or not — and then
yields, in grid index order, the first remaining candidate of each cell; in
particular when every cell's candidate set is a singleton (as after a
complete run) the output is each cell's single variant. It does not fail on
uncollapsed cells; it fails (`unwrap` panic) only when some candidate set is
empty. -/
theorem c9_conversion (st : St) :
    (∀ l, stateToVec st = some l ↔
      ((∀ c ∈ st.cells.list, c.possibilities ≠ []) ∧
       l = st.cells.list.map (fun c => c.possibilities.headD 0))) ∧
    ((∀ c ∈ st.cells.list, c.possibilities.length = 1) →
      stateToVec st
        = some (st.cells.list.map (fun c => c.possibilities.headD 0))) := by
  constructor
  · intro l
    exact mapM_head_spec st.cells.list l
  · intro hall
    refine (mapM_head_spec st.cells.list _).2 ⟨?_, rfl⟩
    intro c hc hnil
    have hlen := hall c hc
    rw [hnil] at hlen
    exact absurd hlen (by decide)

/-- Claim C9 counterexample: the engine-built state `stW1` holds an
uncollapsed cell with two candidates, yet the conversion succeeds and
silently returns the first candidate — it does not fail whenever some cell
is not collapsed. -/
theorem c9_conversion_counterexample :
    build unaryCheck inpW1 = .ok stW1 ∧
    stW1.cells.list.get? 0 = some ⟨[0, 1], 2, false, [], [0]⟩ ∧
    stateToVec stW1 = some [0] := by decide

/-- Witness for the amended C9 at the fully collapsed one-cell state. -/
theorem c9_conversion_witness : stateToVec stW2 = some [1] :=
  (c9_conversion stW2).2 (by decide)

def fullRule2 : Rule := ⟨[(0, 0), (1, 0)]⟩

def rulesA : Rules := ⟨[(0, fullRule2)]⟩

def inpC10 : BuildInput := ⟨1, 2, [2], 5, [(0, 1)], rulesA, [], []⟩

/-- Claim C10 counterexample: a complete engine run that panics inside the
entropy cache. With a variant limit of 1, collapsing the first cell makes
the limit adjuster strike the variant from the second (uncollapsed) cell,
emptying its candidate set and calling `EntropyCache::set` with new entropy
0 — the one-based index `self.0[0 - 1]` underflows. The second conjunct
isolates the failing cache operation. -/
theorem c10_entropy_underflow_counterexample :
    runWfc unaryCheck inpC10 = .panicked ∧
    EntropyCache.set ⟨[[1]]⟩ 1 1 0 = none := by decide

theorem chooseFrom_total {l : List Nat} (r : Rng) (hne : l ≠ []) :
    ∃ v, (chooseFrom l r).1 = some v := by
  unfold chooseFrom
  have hlen : 0 < l.length := List.length_pos.2 hne
  have hlt : r.next.1 % l.length < l.length := Nat.mod_lt _ hlen
  exact ⟨l.get ⟨r.next.1 % l.length, hlt⟩, List.get?_eq_get hlt⟩

/-- Under the bucket invariant, `RandomArbiter::designate` never reaches an
entropy-cache panic: the entropy cleared for the collapsed cell is its
candidate count, which the invariant bounds inside `1..=max_entropy`. -/
theorem designate_no_panic (cells : Cells) (rng : Rng) (hInv : Inv cells) :
    designate cells rng ≠ .panicked := by
  intro hpan
  unfold designate at hpan
  cases hlow : cells.entropy_cache.lowest with
  | none =>
    rw [hlow] at hpan
    exact Res.noConfusion hpan
  | some indexes =>
    rw [hlow] at hpan
    dsimp only at hpan
    rcases hcf : chooseFrom indexes rng with ⟨pick, rng1⟩
    rw [hcf] at hpan
    dsimp only at hpan
    cases pick with
    | none => exact Res.noConfusion hpan
    | some index =>
      obtain ⟨e, hbe, hne⟩ := lowest_spec cells.entropy_cache hlow
      have hmem : index ∈ indexes := chooseFrom_mem hcf
      obtain ⟨c, hg, hcol, hent⟩ := ((hInv.2.2 e indexes hbe) index).1 hmem
      obtain ⟨hnod, _, hcolF⟩ := hInv.1 index c hg
      obtain ⟨hentl, h1, hK⟩ := hcolF hcol
      simp only [Bind.bind, Res.bind] at hpan
      unfold Cells.collapse at hpan
      rw [hg] at hpan
      dsimp only at hpan
      have hcolP : ¬(Cell.collapsed c = true) := by
        rw [show Cell.collapsed c = c.isCollapsed from rfl, hcol]
        exact Bool.false_ne_true
      rw [if_neg hcolP] at hpan
      simp only [Bind.bind, Res.bind] at hpan
      have hposs : c.possibilities ≠ [] := by
        intro hnil
        rw [hnil] at h1
        exact absurd h1 (by decide)
      rcases hcf2 : chooseFrom c.possibilities rng1 with ⟨choice, rngc⟩
      rw [hcf2] at hpan
      dsimp only at hpan
      cases choice with
      | none => exact Res.noConfusion hpan
      | some v =>
        dsimp only at hpan
        obtain ⟨bs, cc, hbs, hcespec, _, _, _⟩ :=
          clear_entry_spec cells.entropy_cache c.possibilities.length index
            (by omega) (by omega)
        simp only [orPanic] at hpan
        rw [hcespec] at hpan
        dsimp only at hpan
        exact Res.noConfusion hpan

/-- Claim C10 (amended): bucket access is one-based — entropy `0` always
panics, entropies `1..=max` always succeed, and `EntropyCache::set` succeeds
exactly when both of its entropy endpoints lie in `1..=max`. The
collapse-path uses of the cache never violate the bounds: under the engine
invariant `RandomArbiter::designate` cannot panic. (The limit adjuster,
however, can pass new entropy `0` after striking a cell's last variant — see
the counterexample — so the claim's "no entropy-cache operation panics" does
not hold of whole runs.) -/
theorem c10_entropy_indexing :
    (∀ c : EntropyCache, c.getBucket 0 = none) ∧
    (∀ (c : EntropyCache) (e : Nat), 1 ≤ e → e ≤ c.buckets.length →
      ∃ b, c.getBucket e = some b) ∧
    (∀ (c : EntropyCache) (sE i nE : Nat),
      (∃ c', EntropyCache.set c sE i nE = some c') ↔
        (1 ≤ sE ∧ sE ≤ c.buckets.length ∧ 1 ≤ nE ∧ nE ≤ c.buckets.length)) ∧
    (∀ (cells : Cells) (rng : Rng), Inv cells →
      designate cells rng ≠ .panicked) := by
  refine ⟨?_, ?_, ?_, ?_⟩
  · intro c
    unfold EntropyCache.getBucket
    rw [if_pos rfl]
  · intro c e h1 h2
    exact getBucket_isSome c h1 h2
  · intro c sE i nE
    constructor
    · rintro ⟨c', hc'⟩
      exact set_bounds hc'
    · rintro ⟨h1, h2, h3, h4⟩
      obtain ⟨bs, c', _, hset, _, _, _⟩ := entropy_set_spec c sE i nE h1 h2 h3 h4
      exact ⟨c', hset⟩
  · intro cells rng hInv
    exact designate_no_panic cells rng hInv

/-- Witness for the amended C10 at the engine-built state `stW1`. -/
theorem c10_entropy_indexing_witness :
    designate stW1.cells ⟨5⟩ ≠ .panicked :=
  c10_entropy_indexing.2.2.2 stW1.cells ⟨5⟩
    (reachable_inv (@Reachable.build unaryCheck inpW1 stW1 (by decide)))

end Wfc
